import Mathlib

/-!
Verification development for the flowkit in-process workflow orchestrator.

Python values are modelled as `Option V` where `none` stands for Python
`None`.  Fallible task bodies are oracles `Nat → Except Unit (Option V)`
giving the outcome of the i-th invocation of the wrapped function, and
`random.uniform` is an oracle `uni : Nat → ℚ → ℚ → ℚ` (call index, lower
bound, upper bound).  Float arithmetic on retry delays is modelled over ℚ.
-/

namespace Flowkit

/-- Model of the constructor attributes of `Task` (src/flowkit/task.py):
`retries`, `delay`, `backoff` and the optional `when` predicate, which the
code applies to the first positional argument (a Python value, possibly
`None`). -/
structure TaskSpec (V : Type) where
  retries : Nat
  delay : ℚ
  backoff : ℚ
  whenP : Option (Option V → Bool)

/-- Observable outcome of one `Task.__call__` invocation: the returned value
or raised error, the number of times the wrapped function body was invoked,
and the list of waits performed before each retry. -/
structure CallResult (V : Type) where
  result : Except Unit (Option V)
  invocations : Nat
  retryDelays : List ℚ

/-- The `while True` retry loop of `Task.__call__` (task.py lines 96-113).
`i` is the number of body invocations so far (the attempt counter equals
`i + 1` after a failure), `cd` is `current_delay`, `acc` the waits
performed so far.  The loop performs at most `retries + 1` invocations, so
fuel `retries + 1` makes the fuel-0 branch unreachable from `taskCall`. -/
def taskLoop (retries : Nat) (backoff : ℚ) (body : Nat → Except Unit (Option V))
    (uni : Nat → ℚ → ℚ → ℚ) : Nat → Nat → ℚ → List ℚ → CallResult V
  | 0, i, _, acc => ⟨Except.error (), i, acc⟩
  | fuel + 1, i, cd, acc =>
    match body i with
    | Except.ok v => ⟨Except.ok v, i + 1, acc⟩
    | Except.error _ =>
      if i + 1 > retries then ⟨Except.error (), i + 1, acc⟩
      else if retries > 0 then
        taskLoop retries backoff body uni fuel (i + 1) (cd * backoff)
          (acc ++ [cd + uni i 0 (cd * (1 / 10))])
      else
        taskLoop retries backoff body uni fuel (i + 1) cd acc

/-- Model of `Task.__call__` (task.py lines 64-113): if a `when` predicate is
set it is evaluated on the first positional argument (no arguments counts as
condition not met), a false condition skips the task returning Python `None`
with zero body invocations; otherwise the retry loop runs. -/
def taskCall (t : TaskSpec V) (args : List (Option V))
    (body : Nat → Except Unit (Option V)) (uni : Nat → ℚ → ℚ → ℚ) : CallResult V :=
  match t.whenP with
  | some p =>
    match args with
    | a :: _ =>
      if p a then taskLoop t.retries t.backoff body uni (t.retries + 1) 0 t.delay []
      else ⟨Except.ok none, 0, []⟩
    | [] => ⟨Except.ok none, 0, []⟩
  | none => taskLoop t.retries t.backoff body uni (t.retries + 1) 0 t.delay []

/-! ## Dependency graphs, paths and cycles

Tasks/nodes are identified by natural numbers.  A graph is a node list
together with a `downstream` adjacency function; edges may occur with
multiplicity, as the `>>` operator appends to the `upstream`/`downstream`
lists without deduplication. -/

/-- Nonempty path following `downstream` edges. -/
inductive PathPlus (g : Nat → List Nat) : Nat → Nat → Prop
  | single {u d : Nat} : d ∈ g u → PathPlus g u d
  | cons {u d w : Nat} : d ∈ g u → PathPlus g d w → PathPlus g u w

/-- A cycle: some node of the graph with a nonempty path back to itself
(covers self-loops and multi-node cycles, also in components disconnected
from the roots). -/
def CycleIn (nodes : List Nat) (g : Nat → List Nat) : Prop :=
  ∃ v ∈ nodes, PathPlus g v v

/-! ## The three-color DFS cycle detector

Model of `DAG._has_cycle` (dag.py lines 134-170) and the identical
`Flow._has_cycle` / `FunctionalFlow._has_cycle`.  The state dictionary is a
total function `Nat → Nat` (0 = unvisited, 1 = visiting, 2 = visited); the
recursion is fueled, and fuel `nodes.length + 1` is shown sufficient. -/

mutual

/-- The recursive `dfs` helper: gray hit reports a cycle, black returns
false, a white node is grayed, its downstream list is scanned, and on a
false answer the node is blackened. -/
def dfsV (g : Nat → List Nat) : Nat → (Nat → Nat) → Nat → Option (Bool × (Nat → Nat))
  | 0, _, _ => none
  | fuel + 1, st, v =>
    if st v = 1 then some (true, st)
    else if st v = 2 then some (false, st)
    else
      match dfsL g fuel (Function.update st v 1) (g v) with
      | none => none
      | some (true, st1) => some (true, st1)
      | some (false, st1) => some (false, Function.update st1 v 2)
termination_by fuel _ _ => (fuel, 0)

/-- The `for downstream in task.downstream` loop inside `dfs`, returning at
the first cycle report. -/
def dfsL (g : Nat → List Nat) : Nat → (Nat → Nat) → List Nat → Option (Bool × (Nat → Nat))
  | _, st, [] => some (false, st)
  | fuel, st, d :: ds =>
    match dfsV g fuel st d with
    | none => none
    | some (true, st1) => some (true, st1)
    | some (false, st1) => dfsL g fuel st1 ds
termination_by fuel _ l => (fuel, l.length + 1)

end

/-- The `for task in tasks` loop of `_has_cycle`, threading the state. -/
def hcLoop (g : Nat → List Nat) (fuel : Nat) : (Nat → Nat) → List Nat → Option Bool
  | _, [] => some false
  | st, t :: ts =>
    if st t = 0 then
      match dfsV g fuel st t with
      | none => none
      | some (true, _) => some true
      | some (false, st1) => hcLoop g fuel st1 ts
    else hcLoop g fuel st ts

/-- `_has_cycle(tasks)`: three-color DFS from every node. -/
def hasCycleB (nodes : List Nat) (g : Nat → List Nat) : Bool :=
  (hcLoop g (nodes.length + 1) (fun _ => 0) nodes).getD true

/-- Number of white (unvisited) nodes in a DFS state. -/
def whiteCount (st : Nat → Nat) (nodes : List Nat) : Nat :=
  nodes.countP (fun v => st v == 0)

/-- States take only the three colors 0, 1, 2. -/
def Tri (st : Nat → Nat) : Prop := ∀ x, st x = 0 ∨ st x = 1 ∨ st x = 2

/-- The black (visited) set is closed under downstream edges. -/
def BlackClosed (g : Nat → List Nat) (st : Nat → Nat) : Prop :=
  ∀ x, st x = 2 → ∀ d ∈ g x, st d = 2

/-- No black (visited) node lies on a cycle. -/
def NBlack (g : Nat → List Nat) (st : Nat → Nat) : Prop :=
  ∀ x, st x = 2 → ¬ PathPlus g x x

/-- Every gray (visiting) node has a nonempty path to `v`: the invariant
carried into a recursive `dfs` call on `v`. -/
def GrayPre (g : Nat → List Nat) (st : Nat → Nat) (v : Nat) : Prop :=
  ∀ x, st x = 1 → PathPlus g x v

/-- Common postcondition of a false-returning DFS call: blacks are
preserved, grays are unchanged, and the closure / acyclicity invariants of
the black set are maintained. -/
structure FalseOut (g : Nat → List Nat) (st st1 : Nat → Nat) : Prop where
  blacks : ∀ x, st x = 2 → st1 x = 2
  grays : ∀ x, st1 x = 1 ↔ st x = 1
  inv : BlackClosed g st → NBlack g st → BlackClosed g st1 ∧ NBlack g st1

/-! ## The concurrent topological scheduler

The run loops of `DAG.run` (dag.py lines 89-128), `Flow.run` (flow.py lines
209-249) and `FunctionalFlow.run` (functional.py lines 259-299) share one
structure: seed the pool with the in-degree-0 nodes, then repeatedly take a
completed future, record its result in the store, and decrement the
in-degree of each downstream node, submitting it the moment its in-degree
hits zero.  A failed future is re-raised before any in-degree is
decremented.  The engine below is parameterized by what the front-ends
vary: the payload captured at submission time (`DAG.run` captures the
positional argument list, `Flow.run` captures `dict(results)`, and
`FunctionalFlow.run` passes the live results dict, captured here as `Unit`
with the store read at processing time), the execution function, and the
store-write policy (`DAG`/`Flow` drop `None` results, `FunctionalFlow`
writes every result).  Completion order is left nondeterministic, as
`concurrent.futures.as_completed` yields futures in arbitrary order. -/

structure Eng (V : Type) (P : Type) where
  nodes : List Nat
  upstream : Nat → List Nat
  downstream : Nat → List Nat
  nm : Nat → Nat
  payload : Nat → List (Nat × Option V) → P
  exec : Nat → P → List (Nat × Option V) → Except Unit (Option V)
  writeAll : Bool

/-- Scheduler state: the in-degree table, the outstanding submissions (with
their captured payloads), the completion-processing order, and the Result
Store (an association list in write order). -/
structure EState (V P : Type) where
  indeg : Nat → Int
  pending : List (Nat × P)
  processed : List Nat
  store : List (Nat × Option V)

/-- Nodes of the outstanding submissions. -/
def pendingNodes (σ : EState V P) : List Nat := σ.pending.map Prod.fst

/-- Initial scheduler state: in-degrees are upstream-list lengths, and every
node with no dependencies is submitted immediately (with an empty store, so
`DAG.run` builds the empty argument list and `Flow.run` passes `{}`). -/
def initState (e : Eng V P) : EState V P :=
  { indeg := fun d => ((e.upstream d).length : Int)
    pending := (e.nodes.filter (fun v => (e.upstream v).length == 0)).map
        (fun v => (v, e.payload v []))
    processed := []
    store := [] }

/-- Store update on completion: `FunctionalFlow.run` always writes
(`results[node.name] = result`); `DAG.run` and `Flow.run` write only when
the result is not `None`. -/
def writeStore (e : Eng V P) (st : List (Nat × Option V)) (v : Nat) (r : Option V) :
    List (Nat × Option V) :=
  if e.writeAll then st ++ [(e.nm v, r)]
  else
    match r with
    | some w => st ++ [(e.nm v, some w)]
    | none => st

/-- The `for down in adj[task]` unlock loop: decrement each downstream
in-degree and submit the node (capturing its payload from the current
store) exactly when the decrement reaches zero. -/
def unlockAll (e : Eng V P) (st : List (Nat × Option V)) :
    (Nat → Int) → List (Nat × P) → List Nat → ((Nat → Int) × List (Nat × P))
  | ind, pend, [] => (ind, pend)
  | ind, pend, d :: ds =>
    if ind d - 1 = 0 then
      unlockAll e st (Function.update ind d (ind d - 1)) (pend ++ [(d, e.payload d st)]) ds
    else
      unlockAll e st (Function.update ind d (ind d - 1)) pend ds

/-- Processing one completed future: write the store, then unlock the
downstream nodes. -/
def processOne [DecidableEq P] (e : Eng V P) (σ : EState V P)
    (v : Nat) (p : P) (r : Option V) : EState V P :=
  let store2 := writeStore e σ.store v r
  let ip := unlockAll e store2 σ.indeg (σ.pending.erase (v, p)) (e.downstream v)
  { indeg := ip.1, pending := ip.2, processed := σ.processed ++ [v], store := store2 }

/-- One scheduler step: some outstanding future completes successfully and
is processed.  A step requires `Except.ok`; a failing future has no
successor state, matching the re-raise before the unlock loop. -/
inductive Step [DecidableEq P] (e : Eng V P) : EState V P → EState V P → Prop
  | proc (σ : EState V P) (v : Nat) (p : P) (r : Option V) :
      (v, p) ∈ σ.pending → e.exec v p σ.store = Except.ok r →
      Step e σ (processOne e σ v p r)

/-- States reachable in a run (after the cycle gate). -/
inductive Reach [DecidableEq P] (e : Eng V P) : EState V P → Prop
  | init : Reach e (initState e)
  | step {σ σ2 : EState V P} : Reach e σ → Step e σ σ2 → Reach e σ2

/-- Well-formed graph: nodes are distinct, edges stay inside the node set,
and the upstream/downstream lists are dual with multiplicity (as maintained
by the `>>` operator and the builders, which always append the two
directions in pairs). -/
structure WfG (e : Eng V P) : Prop where
  nodup : e.nodes.Nodup
  up_mem : ∀ v ∈ e.nodes, ∀ u ∈ e.upstream v, u ∈ e.nodes
  down_mem : ∀ v ∈ e.nodes, ∀ d ∈ e.downstream v, d ∈ e.nodes
  dual : ∀ u ∈ e.nodes, ∀ d ∈ e.nodes, (e.upstream d).count u = (e.downstream u).count d

/-- Scheduler invariants, maintained by every step from the initial state:
submissions and completions stay within the node set, the in-degree table
counts the unprocessed upstream occurrences, every node is submitted at
most once, a submitted node has all its upstream nodes processed, a node
whose in-degree is zero has been submitted, and every store entry was
written by a processed node (with non-`None` results when the engine drops
`None`). -/
structure InvA (e : Eng V P) (σ : EState V P) : Prop where
  pend_sub : ∀ v ∈ pendingNodes σ, v ∈ e.nodes
  proc_sub : ∀ v ∈ σ.processed, v ∈ e.nodes
  indeg_eq : ∀ d ∈ e.nodes,
    σ.indeg d = (((e.upstream d).filter (fun u => decide (u ∉ σ.processed))).length : Int)
  once : ∀ x, (pendingNodes σ ++ σ.processed).count x ≤ 1
  pend_up : ∀ v ∈ pendingNodes σ, ∀ u ∈ e.upstream v, u ∈ σ.processed
  proc_up : ∀ v ∈ σ.processed, ∀ u ∈ e.upstream v, u ∈ σ.processed
  zero_sub : ∀ d ∈ e.nodes, σ.indeg d = 0 → d ∈ pendingNodes σ ∨ d ∈ σ.processed
  store_src : ∀ kv ∈ σ.store, ∃ v ∈ σ.processed, e.nm v = kv.1 ∧
    (∃ q stq, e.exec v q stq = Except.ok kv.2) ∧ (e.writeAll = false → kv.2 ≠ none)

/-- Chain construction for the pigeonhole argument. -/
def predChain (F : Nat → Nat) (v0 : Nat) : Nat → Nat
  | 0 => v0
  | n + 1 => F (predChain F v0 n)

/-! ## Front-end instantiations

Node identifiers and task names are naturals; `params v` is the list of
declared parameter names of node `v`'s wrapped function (what
`inspect.signature` discovers).  Task bodies are oracles: `bodyPos v` gives
the outcome of the i-th positional invocation of node `v`'s function, and
`bodyKw v kw` the outcome of invoking it once with keyword arguments
`kw`. -/

/-- Parameter-name filtering shared by `Flow._execute_task` (flow.py lines
273-281) and `FunctionalFlow._execute_node` (functional.py lines 330-338):
for each declared parameter name, in order, keep the accumulated result
entry with that name, if any. -/
def filteredKwargs (params : List Nat) (results : List (Nat × Option V)) :
    List (Nat × Option V) :=
  params.filterMap (fun q => (results.lookup q).map (fun w => (q, w)))

/-- Model of `Flow._execute_task` (flow.py lines 255-288): with no upstream
results, or none matching a declared parameter name, the Task is invoked
through `Task.__call__` with no arguments (retry and `when` apply);
otherwise `task.func(**filtered_kwargs)` is called directly — one raw
invocation, no retry, no `when` check. -/
def flowExecuteTask (spec : Nat → TaskSpec V) (params : Nat → List Nat)
    (bodyPos : Nat → Nat → Except Unit (Option V))
    (bodyKw : Nat → List (Nat × Option V) → Except Unit (Option V))
    (uni : Nat → Nat → ℚ → ℚ → ℚ) (v : Nat)
    (snapshot : List (Nat × Option V)) : CallResult V :=
  if snapshot.isEmpty then taskCall (spec v) [] (bodyPos v) (uni v)
  else
    let kw := filteredKwargs (params v) snapshot
    if kw.isEmpty then taskCall (spec v) [] (bodyPos v) (uni v)
    else ⟨bodyKw v kw, 1, []⟩

/-- Model of `FunctionalFlow._execute_node` (functional.py lines 312-345):
as `Flow._execute_task`, but guarded by the node's recorded inputs, with
the keyword arguments built from the live results dict at execution
time. -/
def ffExecuteNode (inputs : Nat → List Nat) (spec : Nat → TaskSpec V)
    (params : Nat → List Nat)
    (bodyPos : Nat → Nat → Except Unit (Option V))
    (bodyKw : Nat → List (Nat × Option V) → Except Unit (Option V))
    (uni : Nat → Nat → ℚ → ℚ → ℚ) (v : Nat)
    (results : List (Nat × Option V)) : CallResult V :=
  if (inputs v).isEmpty then taskCall (spec v) [] (bodyPos v) (uni v)
  else
    let kw := filteredKwargs (params v) results
    if kw.isEmpty then taskCall (spec v) [] (bodyPos v) (uni v)
    else ⟨bodyKw v kw, 1, []⟩

/-- `DAG.run` argument construction (dag.py line 127): one positional
argument per upstream list entry, `results.get(u.name)` — the stored value
or Python `None`.  No parameter names are inspected. -/
def dagArgs (upstream : Nat → List Nat) (nm : Nat → Nat) (v : Nat)
    (results : List (Nat × Option V)) : List (Option V) :=
  (upstream v).map (fun u => (results.lookup (nm u)).getD none)

/-- The `DAG.run` engine (dag.py lines 89-128): the submission payload is
the positional argument list built from the store at submission time;
execution is `Task.__call__`; `None` results are not stored. -/
def dagEng (nodes : List Nat) (upstream downstream : Nat → List Nat) (nm : Nat → Nat)
    (spec : Nat → TaskSpec V)
    (body : Nat → List (Option V) → Nat → Except Unit (Option V))
    (uni : Nat → Nat → ℚ → ℚ → ℚ) : Eng V (List (Option V)) :=
  { nodes := nodes, upstream := upstream, downstream := downstream, nm := nm
    payload := fun v results => dagArgs upstream nm v results
    exec := fun v args _ => (taskCall (spec v) args (body v args) (uni v)).result
    writeAll := false }

/-- The `Flow.run` engine (flow.py lines 209-249): the submission payload
is the `dict(results)` snapshot taken when the node becomes ready (line
246); execution is `Flow._execute_task`; `None` results are not stored. -/
def flowEng (nodes : List Nat) (upstream downstream : Nat → List Nat) (nm : Nat → Nat)
    (spec : Nat → TaskSpec V) (params : Nat → List Nat)
    (bodyPos : Nat → Nat → Except Unit (Option V))
    (bodyKw : Nat → List (Nat × Option V) → Except Unit (Option V))
    (uni : Nat → Nat → ℚ → ℚ → ℚ) : Eng V (List (Nat × Option V)) :=
  { nodes := nodes, upstream := upstream, downstream := downstream, nm := nm
    payload := fun _ results => results
    exec := fun v snapshot _ =>
      (flowExecuteTask spec params bodyPos bodyKw uni v snapshot).result
    writeAll := false }

/-! ## The functional-API graph builder -/

/-- The functional-API object graph: `AppliedTask` objects indexed by
construction order.  A node's recorded inputs are strictly earlier objects
(the inputs tuple is fixed at construction, functional.py lines 27-38), so
the object graph is well-founded. -/
structure FFGraph where
  inputs : Nat → List Nat
  hlt : ∀ v u, u ∈ inputs v → u < v

/-- The recursive `traverse` of `FunctionalFlow._build_graph`
(functional.py lines 184-205): skip already-discovered nodes, otherwise
record the node and traverse its recorded inputs in order. -/
def ffTraverse (g : FFGraph) (visited : List Nat) (v : Nat) : List Nat :=
  if v ∈ visited then visited
  else (g.inputs v).attach.foldl (fun acc u => ffTraverse g acc u.1) (visited ++ [v])
termination_by v
decreasing_by exact g.hlt v _ u.2

/-- `_build_graph` (functional.py lines 207-209): traverse from every
declared output, accumulating the discovered node set. -/
def ffAllNodes (g : FFGraph) (outputs : List Nat) : List Nat :=
  outputs.foldl (ffTraverse g) []

/-- Forward edges of the built graph: one `u → v` edge per occurrence of
`u` in the recorded inputs of a discovered node `v` (functional.py lines
203-205). -/
def ffDownstream (g : FFGraph) (outputs : List Nat) (u : Nat) : List Nat :=
  (ffAllNodes g outputs).flatMap (fun v => List.replicate ((g.inputs v).count u) v)

/-- The `FunctionalFlow.run` engine (functional.py lines 259-299): the node
set is the reachable subgraph computed by `_build_graph`, reverse edges are
the recorded inputs, the live results dict is read at execution time (the
payload carries nothing), and every completed node's result is stored. -/
def ffEng (g : FFGraph) (outputs : List Nat) (nm : Nat → Nat)
    (spec : Nat → TaskSpec V) (params : Nat → List Nat)
    (bodyPos : Nat → Nat → Except Unit (Option V))
    (bodyKw : Nat → List (Nat × Option V) → Except Unit (Option V))
    (uni : Nat → Nat → ℚ → ℚ → ℚ) : Eng V Unit :=
  { nodes := ffAllNodes g outputs
    upstream := g.inputs
    downstream := ffDownstream g outputs
    nm := nm
    payload := fun _ _ => ()
    exec := fun v _ results =>
      (ffExecuteNode g.inputs spec params bodyPos bodyKw uni v results).result
    writeAll := true }

/-- Modelled from the spec (§4.4 Named-result injection): "a node's
callable is inspected for its declared parameter names; for each parameter
whose name matches an entry already present in the Result Store, that
value is supplied as an argument; parameters with no match are simply
omitted." -/
def specNamedInjection (declaredParams : List Nat)
    (resultStore : List (Nat × Option V)) : List (Nat × Option V) :=
  declaredParams.filterMap (fun q => (resultStore.lookup q).map (fun w => (q, w)))

/-- Outcome of the cycle gate at the top of every run front-end. -/
inductive RunGateResult
  | cycleError
  | proceed
deriving DecidableEq

/-- The gate: `run` raises `DAGCycleError` before creating the worker pool
when `_has_cycle` reports true (dag.py lines 63-66, flow.py lines 188-191,
functional.py lines 236-239). -/
def runGate (e : Eng V P) : RunGateResult :=
  if hasCycleB e.nodes e.downstream then RunGateResult.cycleError else RunGateResult.proceed

/-- Run-phase states: scheduler states exist only after the gate passes. -/
def RunReach [DecidableEq P] (e : Eng V P) (σ : EState V P) : Prop :=
  runGate e = RunGateResult.proceed ∧ Reach e σ

/-- Reverse reachability through recorded inputs: `w` is reached from `v`
by following input references. -/
inductive InpReach (g : FFGraph) : Nat → Nat → Prop
  | refl (v : Nat) : InpReach g v v
  | step {v u w : Nat} : u ∈ g.inputs v → InpReach g u w → InpReach g v w

/-! ## Concrete fixtures for witnesses and counterexamples -/

/-- Chain fixture `0 → 1 → 2`: upstream lists. -/
def exUpstream : Nat → List Nat
  | 1 => [0]
  | 2 => [1]
  | _ => []

/-- Chain fixture `0 → 1 → 2`: downstream lists. -/
def exDownstream : Nat → List Nat
  | 0 => [1]
  | 1 => [2]
  | _ => []

/-- Fixture task attributes: no retries, no condition. -/
def exSpec : Nat → TaskSpec Nat := fun _ => ⟨0, 1, 2, none⟩

/-- Fixture bodies: node `i` returns value `10·(i+1)` on any invocation. -/
def exBody : Nat → List (Option Nat) → Nat → Except Unit (Option Nat) :=
  fun v _ _ => Except.ok (some (10 * (v + 1)))

/-- Fixture uniform-oracle: always the lower bound. -/
def exUni : Nat → Nat → ℚ → ℚ → ℚ := fun _ _ a _ => a

/-- The `DAG.run` engine on the 3-node chain. -/
def exDagEng : Eng Nat (List (Option Nat)) :=
  dagEng [0, 1, 2] exUpstream exDownstream (fun n => n) exSpec exBody exUni

/-- Self-loop fixture: one task that is its own upstream and downstream. -/
def cycDown : Nat → List Nat
  | 0 => [0]
  | _ => []

/-- The `DAG.run` engine on the self-loop graph. -/
def exCycEng : Eng Nat (List (Option Nat)) :=
  dagEng [0] cycDown cycDown (fun n => n) exSpec exBody exUni

/-- State of the chain run after nodes 0 and 1 have completed: node 2 is
submitted with the positional payload built by `DAG.run`. -/
def exσ2 : EState Nat (List (Option Nat)) :=
  processOne exDagEng
    (processOne exDagEng (initState exDagEng) 0 [] (some 10)) 1 [some 10] (some 20)

/-- Fixture for retry exhaustion: two tasks `0 → 1`, node 0 failing. -/
def c4Upstream : Nat → List Nat
  | 1 => [0]
  | _ => []

/-- Downstream lists of the retry-exhaustion fixture. -/
def c4Downstream : Nat → List Nat
  | 0 => [1]
  | _ => []

/-- Task attributes of the retry-exhaustion fixture: node 0 has
`retries=2`. -/
def c4Spec : Nat → TaskSpec Nat
  | 0 => ⟨2, 1, 2, none⟩
  | _ => ⟨0, 1, 2, none⟩

/-- Bodies of the retry-exhaustion fixture: node 0 always raises. -/
def c4Body : Nat → List (Option Nat) → Nat → Except Unit (Option Nat)
  | 0, _, _ => Except.error ()
  | _, _, _ => Except.ok (some 1)

/-- The `DAG.run` engine of the retry-exhaustion fixture. -/
def c4Eng : Eng Nat (List (Option Nat)) :=
  dagEng [0, 1] c4Upstream c4Downstream (fun n => n) c4Spec c4Body exUni

/-- Functional-API fixture: a single applied task with no inputs. -/
def exFFGraph : FFGraph :=
  ⟨fun _ => [], fun _ u h => absurd h (List.not_mem_nil u)⟩

/-- Its task has a `when` condition, so with no inputs it is skipped as
"no upstream data". -/
def ffSkipSpec : Nat → TaskSpec Nat := fun _ => ⟨0, 1, 2, some (fun x => x = some 60)⟩

/-- The `FunctionalFlow.run` engine of the skip fixture. -/
def ffSkipEng : Eng Nat Unit :=
  ffEng exFFGraph [0] (fun n => n) ffSkipSpec (fun _ => [])
    (fun v _ => Except.ok (some (10 * (v + 1))))
    (fun v _ => Except.ok (some (10 * (v + 1)))) exUni

/-- The skip-fixture state after its single node completes. -/
def ffSkipσ1 : EState Nat Unit :=
  processOne ffSkipEng (initState ffSkipEng) 0 () none

/-- Body oracle for the C6 witness: fails twice, then succeeds. -/
def c6Body : Nat → Except Unit (Option Nat)
  | 0 => Except.error ()
  | 1 => Except.error ()
  | _ => Except.ok (some 5)

/-- Uniform oracle for the C6 witness: always the lower bound. -/
def c6Uni : Nat → ℚ → ℚ → ℚ := fun _ a _ => a

/-- A false `when` condition on the first positional argument skips the task:
no body invocation, no retry, no error, result is Python `None`. -/
theorem taskCall_skip_false (t : TaskSpec V) (p : Option V → Bool)
    (hw : t.whenP = some p) (a : Option V) (rest : List (Option V))
    (hp : p a = false) (body : Nat → Except Unit (Option V))
    (uni : Nat → ℚ → ℚ → ℚ) :
    taskCall t (a :: rest) body uni = ⟨Except.ok none, 0, []⟩ := by
  simp [taskCall, hw, hp]

/-- With a `when` predicate set and no positional arguments, the task is
skipped ("no upstream data"): no body invocation, no retry, no error. -/
theorem taskCall_skip_noargs (t : TaskSpec V) (p : Option V → Bool)
    (hw : t.whenP = some p) (body : Nat → Except Unit (Option V))
    (uni : Nat → ℚ → ℚ → ℚ) :
    taskCall t [] body uni = ⟨Except.ok none, 0, []⟩ := by
  simp [taskCall, hw]

/-- A body that succeeds immediately gives its value with one invocation and
no retries (no `when` predicate present). -/
theorem taskCall_ok (t : TaskSpec V) (hw : t.whenP = none)
    (args : List (Option V)) (body : Nat → Except Unit (Option V))
    (v : Option V) (hb : body 0 = Except.ok v) (uni : Nat → ℚ → ℚ → ℚ) :
    taskCall t args body uni = ⟨Except.ok v, 1, []⟩ := by
  simp [taskCall, hw, taskLoop, hb]

/-- `retries = 2` with a body that always raises: the error surfaces after
exactly 3 body invocations with exactly 2 retry waits, the first wait being
`delay + jitter₀` and the second `delay·backoff + jitter₁`. -/
theorem taskCall_retries2_allfail (t : TaskSpec V) (hw : t.whenP = none)
    (hr : t.retries = 2) (args : List (Option V))
    (body : Nat → Except Unit (Option V)) (hb : ∀ j, body j = Except.error ())
    (uni : Nat → ℚ → ℚ → ℚ) :
    taskCall t args body uni =
      ⟨Except.error (), 3,
        [t.delay + uni 0 0 (t.delay * (1 / 10)),
         t.delay * t.backoff + uni 1 0 (t.delay * t.backoff * (1 / 10))]⟩ := by
  simp [taskCall, hw, hr, taskLoop, hb 0, hb 1, hb 2]

/-- `retries = 3` with a body failing on its first two invocations and
succeeding on the third: the success value is returned after exactly 3
invocations with exactly 2 retry waits; each wait is
`current_delay + jitter` with the jitter drawn by `uniform(0,
current_delay·0.1)`, and `current_delay` starts at `delay` and is multiplied
by `backoff` after each retry. -/
theorem taskCall_failTwiceThenOk (t : TaskSpec V) (hw : t.whenP = none)
    (hr : t.retries = 3) (args : List (Option V))
    (body : Nat → Except Unit (Option V)) (v : Option V)
    (hb0 : body 0 = Except.error ()) (hb1 : body 1 = Except.error ())
    (hb2 : body 2 = Except.ok v) (uni : Nat → ℚ → ℚ → ℚ) :
    taskCall t args body uni =
      ⟨Except.ok v, 3,
        [t.delay + uni 0 0 (t.delay * (1 / 10)),
         t.delay * t.backoff + uni 1 0 (t.delay * t.backoff * (1 / 10))]⟩ := by
  simp [taskCall, hw, hr, taskLoop, hb0, hb1, hb2]

theorem PathPlus.snoc {g : Nat → List Nat} {u v d : Nat}
    (hp : PathPlus g u v) (hd : d ∈ g v) : PathPlus g u d := by
  induction hp with
  | single h => exact PathPlus.cons h (PathPlus.single hd)
  | cons h _ ih => exact PathPlus.cons h (ih hd)

/-- Every node on a path out of a black node is black, when the black set is
closed under `downstream` edges. -/
theorem black_of_path {g : Nat → List Nat} {st : Nat → Nat}
    (hcl : ∀ x, st x = 2 → ∀ d ∈ g x, st d = 2) {u w : Nat}
    (hu : st u = 2) (hp : PathPlus g u w) : st w = 2 := by
  induction hp with
  | single h => exact hcl _ hu _ h
  | cons h _ ih => exact ih (hcl _ hu _ h)

theorem whiteCount_mono {st st1 : Nat → Nat} {nodes : List Nat}
    (h : ∀ x, st1 x = 0 → st x = 0) :
    whiteCount st1 nodes ≤ whiteCount st nodes :=
  List.countP_mono_left (by intro a _ ha; simpa using h a (by simpa using ha))

theorem whiteCount_update_lt {st : Nat → Nat} {nodes : List Nat} {v : Nat}
    (hv : v ∈ nodes) (hnd : nodes.Nodup) (hw : st v = 0) :
    whiteCount (Function.update st v 1) nodes < whiteCount st nodes := by
  induction nodes with
  | nil => cases hv
  | cons a tl ih =>
    rcases List.nodup_cons.mp hnd with ⟨hna, hndtl⟩
    rcases List.mem_cons.mp hv with rfl | hvtl
    · have heq : tl.countP (fun x => Function.update st v 1 x == 0) =
          tl.countP (fun x => st x == 0) := by
        apply List.countP_congr
        intro x hx
        rw [Function.update_noteq (by rintro rfl; exact hna hx)]
      simp [whiteCount, List.countP_cons, heq, Function.update_same, hw]
    · have hva : v ≠ a := by rintro rfl; exact hna hvtl
      have hlt := ih hvtl hndtl
      simp only [whiteCount, List.countP_cons, Function.update_noteq (Ne.symm hva)] at *
      omega

theorem tri_update {st : Nat → Nat} (h : Tri st) (v : Nat) (c : Nat)
    (hc : c = 1 ∨ c = 2) : Tri (Function.update st v c) := by
  intro x
  by_cases hx : x = v
  · subst hx; rw [Function.update_same]; tauto
  · rw [Function.update_noteq hx]; exact h x

/-- Fuel sufficiency: with more fuel than white nodes, the DFS always
returns, whites only shrink, and states stay three-colored. -/
theorem dfs_fuel (g : Nat → List Nat) (nodes : List Nat)
    (hcl : ∀ v ∈ nodes, ∀ d ∈ g v, d ∈ nodes) (hnd : nodes.Nodup) :
    ∀ fuel,
      (∀ st v, v ∈ nodes → Tri st → whiteCount st nodes < fuel →
        ∃ r, dfsV g fuel st v = some r ∧ (∀ x, r.2 x = 0 → st x = 0) ∧ Tri r.2) ∧
      (∀ st l, (∀ d ∈ l, d ∈ nodes) → Tri st → whiteCount st nodes < fuel →
        ∃ r, dfsL g fuel st l = some r ∧ (∀ x, r.2 x = 0 → st x = 0) ∧ Tri r.2) := by
  intro fuel
  induction fuel with
  | zero => exact ⟨fun st v _ _ h => absurd h (Nat.not_lt_zero _),
      fun st l _ _ h => absurd h (Nat.not_lt_zero _)⟩
  | succ fuel ih =>
    have hV : ∀ st v, v ∈ nodes → Tri st → whiteCount st nodes < fuel + 1 →
        ∃ r, dfsV g (fuel + 1) st v = some r ∧ (∀ x, r.2 x = 0 → st x = 0) ∧ Tri r.2 := by
      intro st v hv htri hwc
      by_cases h1 : st v = 1
      · exact ⟨(true, st), by simp [dfsV, h1], fun _ h => h, htri⟩
      · by_cases h2 : st v = 2
        · exact ⟨(false, st), by simp [dfsV, h1, h2], fun _ h => h, htri⟩
        · have h0 : st v = 0 := by rcases htri v with h | h | h <;> tauto
          have htri1 : Tri (Function.update st v 1) := tri_update htri v 1 (Or.inl rfl)
          have hwc1 : whiteCount (Function.update st v 1) nodes < fuel := by
            have := whiteCount_update_lt hv hnd h0
            omega
          obtain ⟨⟨b1, st1⟩, hres, hsh, htri2⟩ :=
            ih.2 (Function.update st v 1) (g v) (hcl v hv) htri1 hwc1
          have hsh1 : ∀ x, st1 x = 0 → st x = 0 := by
            intro x hx
            have := hsh x hx
            by_cases hxv : x = v
            · subst hxv; rw [Function.update_same] at this; omega
            · rwa [Function.update_noteq hxv] at this
          cases b1 with
          | true => exact ⟨(true, st1), by simp [dfsV, h1, h2, hres], hsh1, htri2⟩
          | false =>
            refine ⟨(false, Function.update st1 v 2), by simp [dfsV, h1, h2, hres], ?_,
              tri_update htri2 v 2 (Or.inr rfl)⟩
            intro x hx
            replace hx : Function.update st1 v 2 x = 0 := hx
            by_cases hxv : x = v
            · subst hxv; rw [Function.update_same] at hx; omega
            · rw [Function.update_noteq hxv] at hx; exact hsh1 x hx
    have hL : ∀ st l, (∀ d ∈ l, d ∈ nodes) → Tri st → whiteCount st nodes < fuel + 1 →
        ∃ r, dfsL g (fuel + 1) st l = some r ∧ (∀ x, r.2 x = 0 → st x = 0) ∧ Tri r.2 := by
      intro st l
      induction l generalizing st with
      | nil => exact fun _ htri _ => ⟨(false, st), by simp [dfsL], fun _ h => h, htri⟩
      | cons d ds ihl =>
        intro hmem htri hwc
        obtain ⟨⟨b1, st1⟩, hres, hsh, htri1⟩ := hV st d (hmem d (by simp)) htri hwc
        cases b1 with
        | true => exact ⟨(true, st1), by simp [dfsL, hres], hsh, htri1⟩
        | false =>
          have hwc1 : whiteCount st1 nodes < fuel + 1 :=
            lt_of_le_of_lt (whiteCount_mono hsh) hwc
          obtain ⟨r, hres2, hsh2, htri2⟩ :=
            ihl st1 (fun x hx => hmem x (by simp [hx])) htri1 hwc1
          exact ⟨r, by simp [dfsL, hres, hres2], fun x hx => hsh x (hsh2 x hx), htri2⟩
    exact ⟨hV, hL⟩

/-- Every node on a path out of a black node is black when the black set is
closed. -/
theorem black_of_path2 {g : Nat → List Nat} {st : Nat → Nat}
    (hcl : BlackClosed g st) {u w : Nat}
    (hu : st u = 2) (hp : PathPlus g u w) : st w = 2 := by
  induction hp with
  | single h => exact hcl _ hu _ h
  | cons h _ ih => exact ih (hcl _ hu _ h)

theorem falseOut_refl {g : Nat → List Nat} (st : Nat → Nat) : FalseOut g st st :=
  ⟨fun _ hx => hx, fun _ => Iff.rfl, fun h1 h2 => ⟨h1, h2⟩⟩

theorem falseOut_trans {g : Nat → List Nat} {st st1 st2 : Nat → Nat}
    (a : FalseOut g st st1) (b : FalseOut g st1 st2) : FalseOut g st st2 :=
  ⟨fun x hx => b.blacks x (a.blacks x hx),
   fun x => (b.grays x).trans (a.grays x),
   fun hc hn => by obtain ⟨hc1, hn1⟩ := a.inv hc hn; exact b.inv hc1 hn1⟩

theorem vals_trans {st st1 st2 : Nat → Nat}
    (h1 : ∀ x, st1 x = st x ∨ st1 x = 1 ∨ st1 x = 2)
    (h2 : ∀ x, st2 x = st1 x ∨ st2 x = 1 ∨ st2 x = 2) :
    ∀ x, st2 x = st x ∨ st2 x = 1 ∨ st2 x = 2 := by
  intro x
  rcases h2 x with h | h | h
  · rcases h1 x with h3 | h3 | h3 <;> rw [h, h3] <;> tauto
  · tauto
  · tauto

theorem some_pair_inj {b c : Bool} {s t : Nat → Nat}
    (h : (some (b, s) : Option (Bool × (Nat → Nat))) = some (c, t)) :
    b = c ∧ s = t := by
  injection h with h2
  exact ⟨congrArg Prod.fst h2, congrArg Prod.snd h2⟩

theorem dfsV_eq_zero (g : Nat → List Nat) (st : Nat → Nat) (v : Nat) :
    dfsV g 0 st v = none := by rw [dfsV]

theorem dfsV_eq_succ (g : Nat → List Nat) (fuel : Nat) (st : Nat → Nat) (v : Nat) :
    dfsV g (fuel + 1) st v =
      (if st v = 1 then some (true, st)
       else if st v = 2 then some (false, st)
       else
         match dfsL g fuel (Function.update st v 1) (g v) with
         | none => none
         | some (true, st1) => some (true, st1)
         | some (false, st1) => some (false, Function.update st1 v 2)) := by
  rw [dfsV]

theorem dfsL_eq_nil (g : Nat → List Nat) (fuel : Nat) (st : Nat → Nat) :
    dfsL g fuel st [] = some (false, st) := by rw [dfsL]

theorem dfsL_eq_cons (g : Nat → List Nat) (fuel : Nat) (st : Nat → Nat) (d : Nat) (ds : List Nat) :
    dfsL g fuel st (d :: ds) =
      (match dfsV g fuel st d with
       | none => none
       | some (true, st1) => some (true, st1)
       | some (false, st1) => dfsL g fuel st1 ds) := by rw [dfsL]

/-- Main invariants of the three-color DFS: a true answer under the gray
invariant exhibits a cycle; a false answer blackens the node while
preserving closure and acyclicity of the black set. -/
theorem dfs_post (g : Nat → List Nat) (nodes : List Nat)
    (hcl : ∀ v ∈ nodes, ∀ d ∈ g v, d ∈ nodes) :
    ∀ fuel,
      (∀ st v b st1, dfsV g fuel st v = some (b, st1) → v ∈ nodes →
        (∀ x, st1 x = st x ∨ st1 x = 1 ∨ st1 x = 2) ∧
        (b = false → st1 v = 2 ∧ FalseOut g st st1) ∧
        (b = true → GrayPre g st v → CycleIn nodes g)) ∧
      (∀ st l b st1, dfsL g fuel st l = some (b, st1) → (∀ d ∈ l, d ∈ nodes) →
        (∀ x, st1 x = st x ∨ st1 x = 1 ∨ st1 x = 2) ∧
        (b = false → (∀ d ∈ l, st1 d = 2) ∧ FalseOut g st st1) ∧
        (b = true → (∀ d ∈ l, GrayPre g st d) → CycleIn nodes g)) := by
  intro fuel
  induction fuel with
  | zero =>
    constructor
    · intro st v b st1 h _
      rw [dfsV_eq_zero] at h
      exact absurd h (by simp)
    · intro st l b st1 h hmem
      cases l with
      | nil =>
        rw [dfsL_eq_nil] at h
        obtain ⟨hb, hst⟩ := some_pair_inj h
        subst hb; subst hst
        exact ⟨fun _ => Or.inl rfl,
          fun _ => ⟨by simp, falseOut_refl st⟩,
          fun hh => absurd hh (by decide)⟩
      | cons d ds =>
        rw [dfsL_eq_cons, dfsV_eq_zero] at h
        exact absurd h (by simp)
  | succ fuel ih =>
    have hV : ∀ st v b st1, dfsV g (fuel + 1) st v = some (b, st1) → v ∈ nodes →
        (∀ x, st1 x = st x ∨ st1 x = 1 ∨ st1 x = 2) ∧
        (b = false → st1 v = 2 ∧ FalseOut g st st1) ∧
        (b = true → GrayPre g st v → CycleIn nodes g) := by
      intro st v b st1 h hv
      rw [dfsV_eq_succ] at h
      by_cases h1 : st v = 1
      · rw [if_pos h1] at h
        obtain ⟨hb, hst⟩ := some_pair_inj h
        subst hb; subst hst
        exact ⟨fun _ => Or.inl rfl,
          fun hh => absurd hh (by decide),
          fun _ hpre => ⟨v, hv, hpre v h1⟩⟩
      · by_cases h2 : st v = 2
        · rw [if_neg h1, if_pos h2] at h
          obtain ⟨hb, hst⟩ := some_pair_inj h
          subst hb; subst hst
          exact ⟨fun _ => Or.inl rfl,
            fun _ => ⟨h2, falseOut_refl st⟩,
            fun hh => absurd hh (by decide)⟩
        · rw [if_neg h1, if_neg h2] at h
          rcases hres : dfsL g fuel (Function.update st v 1) (g v) with _ | ⟨b2, st2⟩
          · rw [hres] at h
            exact absurd h (by simp)
          · rw [hres] at h
            have hupvals : ∀ x, Function.update st v 1 x = st x ∨
                Function.update st v 1 x = 1 ∨ Function.update st v 1 x = 2 := by
              intro x
              by_cases hx : x = v
              · subst hx; rw [Function.update_same]; tauto
              · rw [Function.update_noteq hx]; tauto
            obtain ⟨hvals2, hfalse2, htrue2⟩ := ih.2 _ _ _ _ hres (hcl v hv)
            cases b2 with
            | true =>
              obtain ⟨hb, hst⟩ := some_pair_inj h
              subst hb; subst hst
              refine ⟨vals_trans hupvals hvals2,
                fun hh => absurd hh (by decide),
                fun _ hpre => ?_⟩
              apply htrue2 rfl
              intro d hd x hx
              by_cases hxv : x = v
              · subst hxv
                exact PathPlus.single hd
              · rw [Function.update_noteq hxv] at hx
                exact (hpre x hx).snoc hd
            | false =>
              obtain ⟨hb, hst⟩ := some_pair_inj h
              subst hb; subst hst
              obtain ⟨hD, hFO2⟩ := hfalse2 rfl
              have hst2v : st2 v = 1 := (hFO2.grays v).mpr (by rw [Function.update_same])
              have hfinvals : ∀ x, Function.update st2 v 2 x = st x ∨
                  Function.update st2 v 2 x = 1 ∨ Function.update st2 v 2 x = 2 := by
                intro x
                by_cases hx : x = v
                · subst hx; rw [Function.update_same]; tauto
                · rw [Function.update_noteq hx]
                  exact vals_trans hupvals hvals2 x
              refine ⟨hfinvals,
                fun _ => ⟨by rw [Function.update_same], ?_⟩,
                fun hh => absurd hh (by decide)⟩
              refine ⟨?_, ?_, ?_⟩
              · -- blacks preserved
                intro x hx
                have hxv : x ≠ v := by rintro rfl; exact h2 hx
                rw [Function.update_noteq hxv]
                exact hFO2.blacks x (by rw [Function.update_noteq hxv]; exact hx)
              · -- grays unchanged
                intro x
                by_cases hxv : x = v
                · subst hxv
                  rw [Function.update_same]
                  simp [h1]
                · rw [Function.update_noteq hxv, hFO2.grays x, Function.update_noteq hxv]
              · -- closure and acyclicity of the black set
                intro hBC hNB
                have hBC1 : BlackClosed g (Function.update st v 1) := by
                  intro x hx d hd
                  have hxv : x ≠ v := by
                    rintro rfl
                    rw [Function.update_same] at hx
                    exact absurd hx (by decide)
                  rw [Function.update_noteq hxv] at hx
                  have hd2 := hBC x hx d hd
                  have hdv : d ≠ v := by rintro rfl; exact h2 hd2
                  rw [Function.update_noteq hdv]
                  exact hd2
                have hNB1 : NBlack g (Function.update st v 1) := by
                  intro x hx
                  have hxv : x ≠ v := by
                    rintro rfl
                    rw [Function.update_same] at hx
                    exact absurd hx (by decide)
                  rw [Function.update_noteq hxv] at hx
                  exact hNB x hx
                obtain ⟨hBC2, hNB2⟩ := hFO2.inv hBC1 hNB1
                constructor
                · intro x hx d hd
                  by_cases hdv : d = v
                  · subst hdv; rw [Function.update_same]
                  · rw [Function.update_noteq hdv]
                    by_cases hxv : x = v
                    · subst hxv
                      exact hD d hd
                    · rw [Function.update_noteq hxv] at hx
                      exact hBC2 x hx d hd
                · intro x hx hp
                  by_cases hxv : x = v
                  · subst hxv
                    cases hp with
                    | single hd =>
                      have h5 := hD _ hd
                      rw [hst2v] at h5
                      exact absurd h5 (by decide)
                    | cons hd hp2 =>
                      have h5 := black_of_path2 hBC2 (hD _ hd) hp2
                      rw [hst2v] at h5
                      exact absurd h5 (by decide)
                  · rw [Function.update_noteq hxv] at hx
                    exact hNB2 x hx hp
    have hL : ∀ st l b st1, dfsL g (fuel + 1) st l = some (b, st1) → (∀ d ∈ l, d ∈ nodes) →
        (∀ x, st1 x = st x ∨ st1 x = 1 ∨ st1 x = 2) ∧
        (b = false → (∀ d ∈ l, st1 d = 2) ∧ FalseOut g st st1) ∧
        (b = true → (∀ d ∈ l, GrayPre g st d) → CycleIn nodes g) := by
      intro st l
      induction l generalizing st with
      | nil =>
        intro b st1 h _
        rw [dfsL_eq_nil] at h
        obtain ⟨hb, hst⟩ := some_pair_inj h
        subst hb; subst hst
        exact ⟨fun _ => Or.inl rfl, fun _ => ⟨by simp, falseOut_refl st⟩,
          fun hh => absurd hh (by decide)⟩
      | cons d ds ihl =>
        intro b st1 h hmem
        rw [dfsL_eq_cons] at h
        rcases hres : dfsV g (fuel + 1) st d with _ | ⟨b2, st2⟩
        · rw [hres] at h
          exact absurd h (by simp)
        · rw [hres] at h
          obtain ⟨hvalsV, hfalseV, htrueV⟩ := hV _ _ _ _ hres (hmem d (by simp))
          cases b2 with
          | true =>
            obtain ⟨hb, hst⟩ := some_pair_inj h
            subst hb; subst hst
            exact ⟨hvalsV, fun hh => absurd hh (by decide),
              fun _ hpre => htrueV rfl (hpre d (by simp))⟩
          | false =>
            obtain ⟨hblackd, hFOV⟩ := hfalseV rfl
            obtain ⟨hvalsL, hfalseL, htrueL⟩ :=
              ihl st2 b st1 h (fun x hx => hmem x (by simp [hx]))
            refine ⟨vals_trans hvalsV hvalsL, ?_, ?_⟩
            · intro hb
              obtain ⟨hDt, hFOL⟩ := hfalseL hb
              refine ⟨?_, falseOut_trans hFOV hFOL⟩
              intro e he
              rcases List.mem_cons.mp he with rfl | he2
              · exact hFOL.blacks e hblackd
              · exact hDt e he2
            · intro hb hpre
              apply htrueL hb
              intro e he x hx
              exact hpre e (by simp [he]) x ((hFOV.grays x).mp hx)
    exact ⟨hV, hL⟩

theorem hcLoop_eq_nil (g : Nat → List Nat) (fuel : Nat) (st : Nat → Nat) :
    hcLoop g fuel st [] = some false := by rw [hcLoop]

theorem hcLoop_eq_cons (g : Nat → List Nat) (fuel : Nat) (st : Nat → Nat)
    (t : Nat) (ts : List Nat) :
    hcLoop g fuel st (t :: ts) =
      (if st t = 0 then
        match dfsV g fuel st t with
        | none => none
        | some (true, _) => some true
        | some (false, st1) => hcLoop g fuel st1 ts
      else hcLoop g fuel st ts) := by rw [hcLoop]

/-- Completeness direction: if the top-level loop reports no cycle, no node
of the scanned list lies on a cycle. -/
theorem hcLoop_false_no_cycle (g : Nat → List Nat) (nodes : List Nat)
    (hcl : ∀ v ∈ nodes, ∀ d ∈ g v, d ∈ nodes) (fuel : Nat) :
    ∀ l st, (∀ t ∈ l, t ∈ nodes) → (∀ x, st x = 0 ∨ st x = 2) →
      BlackClosed g st → NBlack g st →
      hcLoop g fuel st l = some false → ∀ t ∈ l, ¬ PathPlus g t t := by
  intro l
  induction l with
  | nil => intro st _ _ _ _ _ t ht; cases ht
  | cons t ts ih =>
    intro st hmem hW hBC hNB h
    rw [hcLoop_eq_cons] at h
    by_cases h0 : st t = 0
    · rw [if_pos h0] at h
      rcases hres : dfsV g fuel st t with _ | ⟨b2, st2⟩
      · rw [hres] at h
        exact absurd h (by simp)
      · rw [hres] at h
        cases b2 with
        | true => exact absurd h (by simp)
        | false =>
          obtain ⟨hvals, hfalse, _⟩ :=
            (dfs_post g nodes hcl fuel).1 _ _ _ _ hres (hmem t (by simp))
          obtain ⟨htb, hFO⟩ := hfalse rfl
          obtain ⟨hBC2, hNB2⟩ := hFO.inv hBC hNB
          have hW2 : ∀ x, st2 x = 0 ∨ st2 x = 2 := by
            intro x
            rcases hvals x with hx | hx | hx
            · rw [hx]; exact hW x
            · exfalso
              have hg := (hFO.grays x).mp hx
              rcases hW x with h3 | h3 <;> omega
            · tauto
          intro e he
          rcases List.mem_cons.mp he with rfl | he2
          · exact hNB2 e htb
          · exact ih st2 (fun x hx => hmem x (by simp [hx])) hW2 hBC2 hNB2 h e he2
    · rw [if_neg h0] at h
      have ht2 : st t = 2 := by rcases hW t with h3 | h3; exact absurd h3 h0; exact h3
      intro e he
      rcases List.mem_cons.mp he with rfl | he2
      · exact hNB e ht2
      · exact ih st (fun x hx => hmem x (by simp [hx])) hW hBC hNB h e he2

/-- Soundness direction: a true report from the top-level loop (started with
no gray nodes) exhibits a cycle. -/
theorem hcLoop_true_cycle (g : Nat → List Nat) (nodes : List Nat)
    (hcl : ∀ v ∈ nodes, ∀ d ∈ g v, d ∈ nodes) (fuel : Nat) :
    ∀ l st, (∀ t ∈ l, t ∈ nodes) → (∀ x, st x ≠ 1) →
      hcLoop g fuel st l = some true → CycleIn nodes g := by
  intro l
  induction l with
  | nil =>
    intro st _ _ h
    rw [hcLoop_eq_nil] at h
    exact absurd h (by simp)
  | cons t ts ih =>
    intro st hmem hG h
    rw [hcLoop_eq_cons] at h
    by_cases h0 : st t = 0
    · rw [if_pos h0] at h
      rcases hres : dfsV g fuel st t with _ | ⟨b2, st2⟩
      · rw [hres] at h
        exact absurd h (by simp)
      · rw [hres] at h
        obtain ⟨hvals, hfalse, htrue⟩ :=
          (dfs_post g nodes hcl fuel).1 _ _ _ _ hres (hmem t (by simp))
        cases b2 with
        | true => exact htrue rfl (fun x hx => absurd hx (hG x))
        | false =>
          obtain ⟨_, hFO⟩ := hfalse rfl
          exact ih st2 (fun x hx => hmem x (by simp [hx]))
            (fun x hx => hG x ((hFO.grays x).mp hx)) h
    · rw [if_neg h0] at h
      exact ih st (fun x hx => hmem x (by simp [hx])) hG h

/-- The top-level loop never runs out of fuel when fuel exceeds the white
count. -/
theorem hcLoop_total (g : Nat → List Nat) (nodes : List Nat)
    (hcl : ∀ v ∈ nodes, ∀ d ∈ g v, d ∈ nodes) (hnd : nodes.Nodup) (fuel : Nat) :
    ∀ l st, (∀ t ∈ l, t ∈ nodes) → Tri st → whiteCount st nodes < fuel →
      hcLoop g fuel st l ≠ none := by
  intro l
  induction l with
  | nil =>
    intro st _ _ _
    rw [hcLoop_eq_nil]
    simp
  | cons t ts ih =>
    intro st hmem htri hwc
    rw [hcLoop_eq_cons]
    by_cases h0 : st t = 0
    · rw [if_pos h0]
      obtain ⟨⟨b2, st2⟩, hres, hsh, htri2⟩ :=
        (dfs_fuel g nodes hcl hnd fuel).1 st t (hmem t (by simp)) htri hwc
      rw [hres]
      cases b2 with
      | true => simp
      | false =>
        exact ih st2 (fun x hx => hmem x (by simp [hx])) htri2
          (lt_of_le_of_lt (whiteCount_mono hsh) hwc)
    · rw [if_neg h0]
      exact ih st (fun x hx => hmem x (by simp [hx])) htri hwc

/-- Correctness of `_has_cycle`: the three-color DFS reports true exactly
when the graph has a cycle (self-loop or multi-node, reachable from the
roots or not). -/
theorem hasCycleB_iff_cycle (nodes : List Nat) (g : Nat → List Nat)
    (hcl : ∀ v ∈ nodes, ∀ d ∈ g v, d ∈ nodes) (hnd : nodes.Nodup) :
    hasCycleB nodes g = true ↔ CycleIn nodes g := by
  constructor
  · intro h
    unfold hasCycleB at h
    rcases hres : hcLoop g (nodes.length + 1) (fun _ => 0) nodes with _ | b
    · refine absurd hres (hcLoop_total g nodes hcl hnd _ nodes _ (fun t ht => ht)
        (fun _ => Or.inl rfl) ?_)
      have hle : whiteCount (fun _ => 0) nodes ≤ nodes.length := List.countP_le_length _
      omega
    · rw [hres] at h
      simp at h
      subst h
      exact hcLoop_true_cycle g nodes hcl _ nodes _ (fun t ht => ht)
        (fun x => by simp) hres
  · intro hcyc
    by_contra hfalse
    have hb : hasCycleB nodes g = false := by
      cases hres2 : hasCycleB nodes g
      · rfl
      · exact absurd hres2 hfalse
    unfold hasCycleB at hb
    rcases hres : hcLoop g (nodes.length + 1) (fun _ => 0) nodes with _ | b
    · rw [hres] at hb
      simp at hb
    · rw [hres] at hb
      simp at hb
      subst hb
      obtain ⟨v, hv, hp⟩ := hcyc
      exact hcLoop_false_no_cycle g nodes hcl _ nodes _ (fun t ht => ht)
        (fun _ => Or.inl rfl) (fun x hx => absurd hx (by decide))
        (fun x hx => absurd hx (by decide)) hres v hv hp

theorem unlockAll_ind_spec (e : Eng V P) (st : List (Nat × Option V)) :
    ∀ (ds : List Nat) (ind : Nat → Int) (pend : List (Nat × P)) (d : Nat),
      (unlockAll e st ind pend ds).1 d = ind d - (ds.count d : Int) := by
  intro ds
  induction ds with
  | nil => intro ind pend d; simp [unlockAll]
  | cons d0 tl ih =>
    intro ind pend d
    rw [unlockAll]
    by_cases hz : ind d0 - 1 = 0
    · rw [if_pos hz, ih]
      by_cases hd : d = d0
      · subst hd
        rw [Function.update_same, List.count_cons_self]
        push_cast
        omega
      · rw [Function.update_noteq hd, List.count_cons_of_ne hd]
    · rw [if_neg hz, ih]
      by_cases hd : d = d0
      · subst hd
        rw [Function.update_same, List.count_cons_self]
        push_cast
        omega
      · rw [Function.update_noteq hd, List.count_cons_of_ne hd]

theorem unlockAll_count (e : Eng V P) (st : List (Nat × Option V)) :
    ∀ (ds : List Nat) (ind : Nat → Int) (pend : List (Nat × P)) (x : Nat),
      ((unlockAll e st ind pend ds).2.map Prod.fst).count x =
        (pend.map Prod.fst).count x +
          (if 1 ≤ ind x ∧ ind x ≤ (ds.count x : Int) then 1 else 0) := by
  intro ds
  induction ds with
  | nil =>
    intro ind pend x
    simp only [unlockAll, List.count_nil, Nat.cast_zero]
    split_ifs with h <;> omega
  | cons d0 tl ih =>
    intro ind pend x
    rw [unlockAll]
    by_cases hz : ind d0 - 1 = 0
    · rw [if_pos hz, ih]
      have hmap : ((pend ++ [(d0, e.payload d0 st)]).map Prod.fst).count x =
          (pend.map Prod.fst).count x + (if x = d0 then 1 else 0) := by
        by_cases hd : x = d0 <;> simp [hd]
      rw [hmap]
      by_cases hd : x = d0
      · subst hd
        rw [if_pos rfl, Function.update_same, List.count_cons_self]
        push_cast
        split_ifs <;> omega
      · rw [if_neg hd, Function.update_noteq hd, List.count_cons_of_ne hd]
        split_ifs <;> omega
    · rw [if_neg hz, ih]
      by_cases hd : x = d0
      · subst hd
        rw [Function.update_same, List.count_cons_self]
        push_cast
        split_ifs <;> omega
      · rw [Function.update_noteq hd, List.count_cons_of_ne hd]

theorem unlockAll_mem (e : Eng V P) (st : List (Nat × Option V)) :
    ∀ (ds : List Nat) (ind : Nat → Int) (pend : List (Nat × P)) (x1 : Nat) (x2 : P),
      (x1, x2) ∈ (unlockAll e st ind pend ds).2 →
      (x1, x2) ∈ pend ∨ (x1 ∈ ds ∧ x2 = e.payload x1 st ∧
        1 ≤ ind x1 ∧ ind x1 ≤ (ds.count x1 : Int)) := by
  intro ds
  induction ds with
  | nil =>
    intro ind pend x1 x2 hx
    simp only [unlockAll] at hx
    exact Or.inl hx
  | cons d0 tl ih =>
    intro ind pend x1 x2 hx
    rw [unlockAll] at hx
    by_cases hz : ind d0 - 1 = 0
    · rw [if_pos hz] at hx
      rcases ih _ _ _ _ hx with hx2 | ⟨hx1, hx2, hx3, hx4⟩
      · rcases List.mem_append.mp hx2 with hx3 | hx3
        · exact Or.inl hx3
        · have hx4 : x1 = d0 ∧ x2 = e.payload d0 st := by simpa using hx3
          obtain ⟨rfl, rfl⟩ := hx4
          refine Or.inr ⟨by simp, rfl, by omega, ?_⟩
          rw [List.count_cons_self]
          push_cast
          omega
      · by_cases hd : x1 = d0
        · subst hd
          rw [Function.update_same] at hx3
          exfalso
          omega
        · rw [Function.update_noteq hd] at hx3 hx4
          refine Or.inr ⟨by simp [hx1], hx2, hx3, ?_⟩
          rw [List.count_cons_of_ne hd]
          exact hx4
    · rw [if_neg hz] at hx
      rcases ih _ _ _ _ hx with hx2 | ⟨hx1, hx2, hx3, hx4⟩
      · exact Or.inl hx2
      · by_cases hd : x1 = d0
        · subst hd
          rw [Function.update_same] at hx3 hx4
          refine Or.inr ⟨by simp, hx2, by omega, ?_⟩
          rw [List.count_cons_self]
          push_cast at hx4 ⊢
          omega
        · rw [Function.update_noteq hd] at hx3 hx4
          refine Or.inr ⟨by simp [hx1], hx2, hx3, ?_⟩
          rw [List.count_cons_of_ne hd]
          exact hx4

theorem unlockAll_prefix (e : Eng V P) (st : List (Nat × Option V)) :
    ∀ (ds : List Nat) (ind : Nat → Int) (pend : List (Nat × P)) (x : Nat × P),
      x ∈ pend → x ∈ (unlockAll e st ind pend ds).2 := by
  intro ds
  induction ds with
  | nil =>
    intro ind pend x hx
    simpa only [unlockAll] using hx
  | cons d0 tl ih =>
    intro ind pend x hx
    rw [unlockAll]
    by_cases hz : ind d0 - 1 = 0
    · rw [if_pos hz]
      exact ih _ _ _ (List.mem_append.mpr (Or.inl hx))
    · rw [if_neg hz]
      exact ih _ _ _ hx

theorem count_map_fst_erase {α β : Type} [DecidableEq α] [DecidableEq β]
    (l : List (α × β)) (a : α × β) (ha : a ∈ l) (x : α) :
    ((l.erase a).map Prod.fst).count x + (if x = a.1 then 1 else 0) =
      (l.map Prod.fst).count x := by
  induction l with
  | nil => cases ha
  | cons b tl ih =>
    by_cases hba : b = a
    · subst hba
      rw [List.erase_cons_head]
      by_cases hx : x = b.1
      · simp [List.count_cons, hx]
      · simp [List.count_cons, hx, Ne.symm hx]
    · have ha2 : a ∈ tl := by
        rcases List.mem_cons.mp ha with h | h
        · exact absurd h.symm hba
        · exact h
      rw [List.erase_cons_tail (by simpa using hba)]
      have hih := ih ha2
      by_cases hx : x = b.1
      · simp only [List.map_cons, List.count_cons, beq_iff_eq]
        simp [hx] at hih ⊢
        omega
      · simp only [List.map_cons, List.count_cons, beq_iff_eq]
        simp [hx, Ne.symm hx] at hih ⊢
        omega

theorem filter_notmem_snoc (l procs : List Nat) (v : Nat) (hv : v ∉ procs) :
    (l.filter (fun u => decide (u ∉ procs ++ [v]))).length + l.count v =
      (l.filter (fun u => decide (u ∉ procs))).length := by
  induction l with
  | nil => simp
  | cons a tl ih =>
    rw [List.filter_cons, List.filter_cons]
    by_cases hav : a = v
    · subst hav
      have h1 : (decide (a ∉ procs ++ [a]) : Bool) = false := by simp
      have h2 : (decide (a ∉ procs) : Bool) = true := by simpa using hv
      rw [h1, h2, List.count_cons_self]
      simp at ih ⊢
      omega
    · have h3 : (decide (a ∉ procs ++ [v]) : Bool) = (decide (a ∉ procs) : Bool) := by
        simp [List.mem_append, hav]
      rw [h3, List.count_cons_of_ne (by exact fun h => hav h.symm)]
      cases hdec : (decide (a ∉ procs) : Bool)
      · simp at ih ⊢
        omega
      · simp at ih ⊢
        omega

theorem count_le_filter {l procs : List Nat} {v : Nat} (hv : v ∉ procs) :
    l.count v ≤ (l.filter (fun u => decide (u ∉ procs))).length := by
  calc l.count v = (l.filter (fun u => decide (u ∉ procs))).count v :=
        (List.count_filter (by simpa using hv)).symm
    _ ≤ _ := List.count_le_length _ _

theorem processOne_indeg [DecidableEq P] (e : Eng V P) (σ : EState V P)
    (v : Nat) (p : P) (r : Option V) :
    (processOne e σ v p r).indeg =
      (unlockAll e (writeStore e σ.store v r) σ.indeg
        (σ.pending.erase (v, p)) (e.downstream v)).1 := rfl

theorem processOne_pending [DecidableEq P] (e : Eng V P) (σ : EState V P)
    (v : Nat) (p : P) (r : Option V) :
    (processOne e σ v p r).pending =
      (unlockAll e (writeStore e σ.store v r) σ.indeg
        (σ.pending.erase (v, p)) (e.downstream v)).2 := rfl

theorem processOne_processed [DecidableEq P] (e : Eng V P) (σ : EState V P)
    (v : Nat) (p : P) (r : Option V) :
    (processOne e σ v p r).processed = σ.processed ++ [v] := rfl

theorem processOne_store [DecidableEq P] (e : Eng V P) (σ : EState V P)
    (v : Nat) (p : P) (r : Option V) :
    (processOne e σ v p r).store = writeStore e σ.store v r := rfl

theorem indeg_eq_zero_of_processed {e : Eng V P} {σ : EState V P}
    (hinv : InvA e σ) {x : Nat} (hx : x ∈ e.nodes)
    (h : ∀ u ∈ e.upstream x, u ∈ σ.processed) : σ.indeg x = 0 := by
  rw [hinv.indeg_eq x hx]
  have h2 : (e.upstream x).filter (fun u => decide (u ∉ σ.processed)) = [] :=
    List.filter_eq_nil_iff.mpr (by intro a ha; simp [h a ha])
  rw [h2]
  simp

/-- The invariants hold in the initial state. -/
theorem invA_init (e : Eng V P) (hwf : WfG e) : InvA e (initState e) := by
  have hpn : pendingNodes (initState e) =
      e.nodes.filter (fun v => (e.upstream v).length == 0) := by
    show ((e.nodes.filter _).map _).map Prod.fst = _
    rw [List.map_map]
    exact List.map_id _
  constructor
  · intro v hv
    rw [hpn] at hv
    exact List.mem_of_mem_filter hv
  · intro v hv
    exact absurd hv (List.not_mem_nil v)
  · intro d _
    show ((e.upstream d).length : Int) = _
    have hproc : (initState e).processed = [] := rfl
    rw [hproc]
    have h2 : (e.upstream d).filter (fun u => decide (u ∉ ([] : List Nat))) = e.upstream d :=
      List.filter_eq_self.mpr (by intro a _; simp)
    rw [h2]
  · intro x
    have h2 : (initState e).processed = [] := rfl
    rw [List.count_append, h2, hpn]
    have h3 : (e.nodes.filter (fun v => (e.upstream v).length == 0)).Nodup :=
      List.Nodup.filter _ hwf.nodup
    have h4 := List.nodup_iff_count_le_one.mp h3 x
    simp only [List.count_nil]
    omega
  · intro v hv u hu
    rw [hpn] at hv
    have h2 := List.of_mem_filter hv
    have hlen : (e.upstream v).length = 0 := by simpa using h2
    rw [List.length_eq_zero] at hlen
    rw [hlen] at hu
    exact absurd hu (List.not_mem_nil u)
  · intro v hv
    exact absurd hv (List.not_mem_nil v)
  · intro d hd hz
    left
    rw [hpn]
    refine List.mem_filter.mpr ⟨hd, ?_⟩
    have h2 : ((e.upstream d).length : Int) = 0 := hz
    simp only [beq_iff_eq]
    exact_mod_cast h2
  · intro kv hkv
    exact absurd hkv (List.not_mem_nil kv)

/-- A node with an outstanding submission has not been processed yet. -/
theorem pending_not_processed {e : Eng V P} {σ : EState V P} (hinv : InvA e σ)
    {v : Nat} (hv : v ∈ pendingNodes σ) : v ∉ σ.processed := by
  intro hc
  have h1 : 0 < (pendingNodes σ).count v := List.count_pos_iff.mpr hv
  have h2 : 0 < σ.processed.count v := List.count_pos_iff.mpr hc
  have h3 := hinv.once v
  rw [List.count_append] at h3
  omega

/-- The scheduler invariants are preserved by every step. -/
theorem invA_step [DecidableEq P] {e : Eng V P} (hwf : WfG e)
    {σ σ2 : EState V P} (hinv : InvA e σ) (hstep : Step e σ σ2) : InvA e σ2 := by
  cases hstep with
  | proc v p r hmem hok =>
    have hvpn : v ∈ pendingNodes σ := List.mem_map.mpr ⟨(v, p), hmem, rfl⟩
    have hvnode : v ∈ e.nodes := hinv.pend_sub v hvpn
    have hvnotproc : v ∉ σ.processed := pending_not_processed hinv hvpn
    have hindzero : σ.indeg v = 0 :=
      indeg_eq_zero_of_processed hinv hvnode (hinv.pend_up v hvpn)
    have hpend2 := processOne_pending e σ v p r
    have hproc2 := processOne_processed e σ v p r
    have hsto2 := processOne_store e σ v p r
    have hindall : ∀ d, (processOne e σ v p r).indeg d =
        σ.indeg d - ((e.downstream v).count d : Int) := by
      intro d
      rw [processOne_indeg]
      exact unlockAll_ind_spec _ _ _ _ _ d
    have hcnt_le : ∀ d ∈ e.nodes, ((e.downstream v).count d : Int) ≤ σ.indeg d := by
      intro d hd
      rw [hinv.indeg_eq d hd]
      have h1 : (e.downstream v).count d = (e.upstream d).count v :=
        (hwf.dual v hvnode d hd).symm
      rw [h1]
      exact_mod_cast count_le_filter hvnotproc
    have hEcount : ∀ x, ((σ.pending.erase (v, p)).map Prod.fst).count x +
        (if x = v then 1 else 0) = (pendingNodes σ).count x :=
      fun x => count_map_fst_erase σ.pending (v, p) hmem x
    have hpn2count : ∀ x, (pendingNodes (processOne e σ v p r)).count x =
        ((σ.pending.erase (v, p)).map Prod.fst).count x +
          (if 1 ≤ σ.indeg x ∧ σ.indeg x ≤ ((e.downstream v).count x : Int)
            then 1 else 0) := by
      intro x
      show ((processOne e σ v p r).pending.map Prod.fst).count x = _
      rw [hpend2]
      exact unlockAll_count _ _ _ _ _ x
    have hpn2mem : ∀ x ∈ pendingNodes (processOne e σ v p r),
        x ∈ pendingNodes σ ∨ (x ∈ e.downstream v ∧
          1 ≤ σ.indeg x ∧ σ.indeg x ≤ ((e.downstream v).count x : Int)) := by
      intro x hx
      obtain ⟨⟨x1, x2⟩, hx12, hfst⟩ := List.mem_map.mp hx
      cases hfst
      rw [hpend2] at hx12
      rcases unlockAll_mem _ _ _ _ _ _ _ hx12 with hmE | ⟨hmD, _, h1, h2⟩
      · exact Or.inl (List.mem_map.mpr ⟨(x1, x2), List.mem_of_mem_erase hmE, rfl⟩)
      · exact Or.inr ⟨hmD, h1, h2⟩
    have hnewup : ∀ x, x ∈ e.downstream v →
        1 ≤ σ.indeg x → σ.indeg x ≤ ((e.downstream v).count x : Int) →
        ∀ u ∈ e.upstream x, u ∈ σ.processed ++ [v] := by
      intro x hxD h1 h2 u hu
      have hxnode : x ∈ e.nodes := hwf.down_mem v hvnode x hxD
      have hle := hcnt_le x hxnode
      have h5 := filter_notmem_snoc (e.upstream x) σ.processed v hvnotproc
      have h6 : (e.upstream x).count v = (e.downstream v).count x :=
        hwf.dual v hvnode x hxnode
      have h8 := hinv.indeg_eq x hxnode
      have h7 : ((e.upstream x).filter
          (fun u => decide (u ∉ σ.processed ++ [v]))).length = 0 := by omega
      have h9 : (e.upstream x).filter (fun u => decide (u ∉ σ.processed ++ [v])) = [] :=
        List.length_eq_zero.mp h7
      by_contra hc
      have h10 : u ∈ (e.upstream x).filter (fun u => decide (u ∉ σ.processed ++ [v])) :=
        List.mem_filter.mpr ⟨hu, by simpa using hc⟩
      rw [h9] at h10
      exact absurd h10 (List.not_mem_nil u)
    constructor
    · -- pend_sub
      intro x hx
      rcases hpn2mem x hx with h1 | ⟨h1, _, _⟩
      · exact hinv.pend_sub x h1
      · exact hwf.down_mem v hvnode x h1
    · -- proc_sub
      intro x hx
      rw [hproc2] at hx
      rcases List.mem_append.mp hx with h1 | h1
      · exact hinv.proc_sub x h1
      · have h2 : x = v := by simpa using h1
        subst h2
        exact hvnode
    · -- indeg_eq
      intro d hd
      rw [hindall d, hinv.indeg_eq d hd, hproc2]
      have h6 : (e.downstream v).count d = (e.upstream d).count v :=
        (hwf.dual v hvnode d hd).symm
      have h5 := filter_notmem_snoc (e.upstream d) σ.processed v hvnotproc
      omega
    · -- once
      intro x
      rw [List.count_append, hpn2count x, hproc2, List.count_append]
      have honce := hinv.once x
      rw [List.count_append] at honce
      have hE := hEcount x
      have hcv : ([v].count x) = if x = v then 1 else 0 := by
        by_cases hxv : x = v <;> simp [hxv]
      rw [hcv]
      by_cases hxv : x = v
      · have hC : ¬(1 ≤ σ.indeg x ∧ σ.indeg x ≤ ((e.downstream v).count x : Int)) := by
          subst hxv
          omega
        rw [if_neg hC, if_pos hxv]
        rw [if_pos hxv] at hE
        omega
      · rw [if_neg hxv]
        rw [if_neg hxv] at hE
        by_cases hC : 1 ≤ σ.indeg x ∧ σ.indeg x ≤ ((e.downstream v).count x : Int)
        · rw [if_pos hC]
          obtain ⟨h1, h2⟩ := hC
          have hxD : x ∈ e.downstream v := by
            refine List.count_pos_iff.mp ?_
            have h3 : (1 : Int) ≤ ((e.downstream v).count x : Int) := le_trans h1 h2
            exact_mod_cast h3
          have hxnode : x ∈ e.nodes := hwf.down_mem v hvnode x hxD
          have hnp : x ∉ pendingNodes σ := by
            intro hc
            have h4 := indeg_eq_zero_of_processed hinv hxnode (hinv.pend_up x hc)
            omega
          have hnq : x ∉ σ.processed := by
            intro hc
            have h4 := indeg_eq_zero_of_processed hinv hxnode (hinv.proc_up x hc)
            omega
          have hc1 : (pendingNodes σ).count x = 0 := List.count_eq_zero.mpr hnp
          have hc2 : σ.processed.count x = 0 := List.count_eq_zero.mpr hnq
          omega
        · rw [if_neg hC]
          omega
    · -- pend_up
      intro x hx u hu
      rw [hproc2]
      obtain ⟨⟨x1, x2⟩, hx12, hfst⟩ := List.mem_map.mp hx
      cases hfst
      rw [hpend2] at hx12
      rcases unlockAll_mem _ _ _ _ _ _ _ hx12 with hmE | ⟨hmD, _, h1, h2⟩
      · have hold := hinv.pend_up x1
          (List.mem_map.mpr ⟨(x1, x2), List.mem_of_mem_erase hmE, rfl⟩) u hu
        exact List.mem_append.mpr (Or.inl hold)
      · exact hnewup x1 hmD h1 h2 u hu
    · -- proc_up
      intro x hx u hu
      rw [hproc2] at hx ⊢
      rcases List.mem_append.mp hx with h1 | h1
      · exact List.mem_append.mpr (Or.inl (hinv.proc_up x h1 u hu))
      · have hxv : x = v := by simpa using h1
        subst hxv
        exact List.mem_append.mpr (Or.inl (hinv.pend_up x hvpn u hu))
    · -- zero_sub
      intro d hd hz
      rw [hindall d] at hz
      have hle := hcnt_le d hd
      by_cases hDc : (e.downstream v).count d = 0
      · have hz0 : σ.indeg d = 0 := by omega
        rcases hinv.zero_sub d hd hz0 with hpend | hproc
        · obtain ⟨⟨d1, q⟩, hdq, hfst⟩ := List.mem_map.mp hpend
          cases hfst
          by_cases hdvq : (d1, q) = (v, p)
          · right
            rw [hproc2]
            have hd1v : d1 = v := congrArg Prod.fst hdvq
            simp [hd1v]
          · left
            have hmE : (d1, q) ∈ σ.pending.erase (v, p) :=
              (List.mem_erase_of_ne hdvq).mpr hdq
            have h3 : (d1, q) ∈ (processOne e σ v p r).pending := by
              rw [hpend2]
              exact unlockAll_prefix _ _ _ _ _ _ hmE
            exact List.mem_map.mpr ⟨(d1, q), h3, rfl⟩
        · right
          rw [hproc2]
          exact List.mem_append.mpr (Or.inl hproc)
      · left
        have h1 : 0 < (pendingNodes (processOne e σ v p r)).count d := by
          rw [hpn2count d]
          have h2 : (if 1 ≤ σ.indeg d ∧ σ.indeg d ≤ ((e.downstream v).count d : Int)
              then 1 else 0) = 1 := by
            rw [if_pos]
            exact ⟨by omega, by omega⟩
          omega
        exact List.count_pos_iff.mp h1
    · -- store_src
      intro kv hkv
      rw [hsto2] at hkv
      unfold writeStore at hkv
      by_cases hwa : e.writeAll = true
      · rw [if_pos hwa] at hkv
        rcases List.mem_append.mp hkv with h1 | h1
        · obtain ⟨u, hu, h2, h3, h4⟩ := hinv.store_src kv h1
          exact ⟨u, by rw [hproc2]; exact List.mem_append.mpr (Or.inl hu), h2, h3, h4⟩
        · have h2 : kv = (e.nm v, r) := by simpa using h1
          subst h2
          refine ⟨v, by rw [hproc2]; simp, rfl, ⟨p, σ.store, hok⟩, ?_⟩
          intro h5
          rw [h5] at hwa
          exact absurd hwa (by decide)
      · rw [if_neg hwa] at hkv
        cases r with
        | some w =>
          rcases List.mem_append.mp hkv with h1 | h1
          · obtain ⟨u, hu, h2, h3, h4⟩ := hinv.store_src kv h1
            exact ⟨u, by rw [hproc2]; exact List.mem_append.mpr (Or.inl hu), h2, h3, h4⟩
          · have h2 : kv = (e.nm v, some w) := by simpa using h1
            subst h2
            exact ⟨v, by rw [hproc2]; simp, rfl, ⟨p, σ.store, hok⟩, fun _ => by simp⟩
        | none =>
          obtain ⟨u, hu, h2, h3, h4⟩ := hinv.store_src kv hkv
          exact ⟨u, by rw [hproc2]; exact List.mem_append.mpr (Or.inl hu), h2, h3, h4⟩

/-- The invariants hold in every reachable state. -/
theorem invA_reach [DecidableEq P] {e : Eng V P} (hwf : WfG e)
    {σ : EState V P} (h : Reach e σ) : InvA e σ := by
  induction h with
  | init => exact invA_init e hwf
  | step _ hstep ih => exact invA_step hwf ih hstep

/-- With unique node names, a step never writes a store key that is already
present. -/
theorem store_keys_nodup_step [DecidableEq P] {e : Eng V P}
    (hinj : ∀ a ∈ e.nodes, ∀ b ∈ e.nodes, e.nm a = e.nm b → a = b)
    {σ σ2 : EState V P} (hinv : InvA e σ)
    (hkeys : (σ.store.map Prod.fst).Nodup) (hstep : Step e σ σ2) :
    (σ2.store.map Prod.fst).Nodup := by
  cases hstep with
  | proc v p r hmem hok =>
    have hvpn : v ∈ pendingNodes σ := List.mem_map.mpr ⟨(v, p), hmem, rfl⟩
    have hvnode : v ∈ e.nodes := hinv.pend_sub v hvpn
    have hvnotproc : v ∉ σ.processed := pending_not_processed hinv hvpn
    have hfresh : e.nm v ∉ σ.store.map Prod.fst := by
      intro hc
      obtain ⟨⟨k, w⟩, hkw, hfst⟩ := List.mem_map.mp hc
      obtain ⟨u, hu, h2, _, _⟩ := hinv.store_src (k, w) hkw
      have hunode := hinv.proc_sub u hu
      have huv : u = v := hinj u hunode v hvnode (by rw [h2]; exact hfst)
      subst huv
      exact hvnotproc hu
    have hsnoc : ∀ (w : Option V), ((σ.store ++ [(e.nm v, w)]).map Prod.fst).Nodup := by
      intro w
      rw [List.map_append]
      refine List.Nodup.append hkeys (by simp) ?_
      intro a ha hb
      simp at hb
      subst hb
      exact hfresh ha
    rw [processOne_store]
    unfold writeStore
    by_cases hwa : e.writeAll = true
    · rw [if_pos hwa]
      exact hsnoc r
    · rw [if_neg hwa]
      cases r with
      | some w => exact hsnoc (some w)
      | none => exact hkeys

/-- With unique node names, the store keys of every reachable state are
pairwise distinct: once written, an entry is never overwritten. -/
theorem store_keys_nodup_reach [DecidableEq P] {e : Eng V P} (hwf : WfG e)
    (hinj : ∀ a ∈ e.nodes, ∀ b ∈ e.nodes, e.nm a = e.nm b → a = b)
    {σ : EState V P} (h : Reach e σ) : (σ.store.map Prod.fst).Nodup := by
  induction h with
  | init => exact List.nodup_nil
  | step hr hstep ih => exact store_keys_nodup_step hinj (invA_reach hwf hr) ih hstep

/-- Pigeonhole: in a finite nonempty set in which every element has an
incoming edge from inside the set, some element lies on a cycle. -/
theorem cycle_of_all_have_pred (g : Nat → List Nat) (S : List Nat) (hne : S ≠ [])
    (hpred : ∀ v ∈ S, ∃ u ∈ S, v ∈ g u) :
    ∃ v ∈ S, PathPlus g v v := by
  obtain ⟨v0, hv0⟩ := List.exists_mem_of_ne_nil S hne
  have hptotal : ∀ v, ∃ u, v ∈ S → u ∈ S ∧ v ∈ g u := by
    intro v
    by_cases hv : v ∈ S
    · obtain ⟨u, hu, hgu⟩ := hpred v hv
      exact ⟨u, fun _ => ⟨hu, hgu⟩⟩
    · exact ⟨0, fun h => absurd h hv⟩
  choose F hF using hptotal
  set c : Nat → Nat := predChain F v0 with hc
  have hcS : ∀ n, c n ∈ S := by
    intro n
    induction n with
    | zero => exact hv0
    | succ n ih =>
      show F (c n) ∈ S
      exact (hF (c n) ih).1
  have hedge : ∀ n, c n ∈ g (c (n + 1)) := by
    intro n
    show c n ∈ g (F (c n))
    exact (hF (c n) (hcS n)).2
  have hchain : ∀ n d, PathPlus g (c (n + d + 1)) (c n) := by
    intro n d
    induction d with
    | zero => exact PathPlus.single (hedge n)
    | succ d ih => exact PathPlus.cons (hedge (n + d + 1)) ih
  have hmaps : ∀ n ∈ Finset.range (S.length + 1), c n ∈ S.toFinset :=
    fun n _ => List.mem_toFinset.mpr (hcS n)
  have hcard : S.toFinset.card < (Finset.range (S.length + 1)).card := by
    rw [Finset.card_range]
    have h2 := S.toFinset_card_le
    omega
  obtain ⟨i, hi, j, hj, hij, hcij⟩ :=
    Finset.exists_ne_map_eq_of_card_lt_of_maps_to hcard hmaps
  rcases Nat.lt_or_ge i j with hlt | hge
  · obtain ⟨d, rfl⟩ : ∃ d, j = i + d + 1 := ⟨j - i - 1, by omega⟩
    have hpp := hchain i d
    rw [← hcij] at hpp
    exact ⟨c i, hcS i, hpp⟩
  · have hlt : j < i := lt_of_le_of_ne hge (Ne.symm hij)
    obtain ⟨d, rfl⟩ : ∃ d, i = j + d + 1 := ⟨i - j - 1, by omega⟩
    have hpp := hchain j d
    rw [hcij] at hpp
    exact ⟨c j, hcS j, hpp⟩

/-- Deadlock freedom: in a reachable state of an acyclic graph with no
outstanding submissions, every node has been processed. -/
theorem pending_empty_all_processed [DecidableEq P] {e : Eng V P} (hwf : WfG e)
    (hacyc : ¬ CycleIn e.nodes e.downstream)
    {σ : EState V P} (hr : Reach e σ) (hp : σ.pending = []) :
    ∀ v ∈ e.nodes, v ∈ σ.processed := by
  have hinv := invA_reach hwf hr
  by_contra hc
  push_neg at hc
  obtain ⟨v0, hv0, hv0n⟩ := hc
  have hne : e.nodes.filter (fun v => decide (v ∉ σ.processed)) ≠ [] := by
    intro h0
    have h1 : v0 ∈ e.nodes.filter (fun v => decide (v ∉ σ.processed)) :=
      List.mem_filter.mpr ⟨hv0, by simpa using hv0n⟩
    rw [h0] at h1
    exact absurd h1 (List.not_mem_nil v0)
  have hpred : ∀ v ∈ e.nodes.filter (fun v => decide (v ∉ σ.processed)),
      ∃ u ∈ e.nodes.filter (fun v => decide (v ∉ σ.processed)), v ∈ e.downstream u := by
    intro v hv
    have hvnode : v ∈ e.nodes := List.mem_of_mem_filter hv
    have hvnp : v ∉ σ.processed := by simpa using List.of_mem_filter hv
    have hnz : σ.indeg v ≠ 0 := by
      intro h0
      rcases hinv.zero_sub v hvnode h0 with h1 | h1
      · simp [pendingNodes, hp] at h1
      · exact hvnp h1
    have hie := hinv.indeg_eq v hvnode
    have hne2 : (e.upstream v).filter (fun u => decide (u ∉ σ.processed)) ≠ [] := by
      intro h0
      rw [h0] at hie
      simp at hie
      exact hnz hie
    obtain ⟨u, hu⟩ := List.exists_mem_of_ne_nil _ hne2
    have hu1 : u ∈ e.upstream v := List.mem_of_mem_filter hu
    have hu2 : u ∉ σ.processed := by simpa using List.of_mem_filter hu
    have hunode : u ∈ e.nodes := hwf.up_mem v hvnode u hu1
    refine ⟨u, List.mem_filter.mpr ⟨hunode, by simpa using hu2⟩, ?_⟩
    have hcnt : 0 < (e.upstream v).count u := List.count_pos_iff.mpr hu1
    have hd := hwf.dual u hunode v hvnode
    refine List.count_pos_iff.mp ?_
    omega
  obtain ⟨v, hvS, hcycle⟩ := cycle_of_all_have_pred e.downstream _ hne hpred
  exact hacyc ⟨v, List.mem_of_mem_filter hvS, hcycle⟩

/-- In a stuck state every outstanding submission fails: the run is about to
re-raise a task error. -/
theorem stuck_pending_fails [DecidableEq P] {e : Eng V P} {σ : EState V P}
    (hstuck : ∀ σ2, ¬ Step e σ σ2) :
    ∀ x ∈ σ.pending, e.exec x.1 x.2 σ.store = Except.error () := by
  intro x hx
  obtain ⟨x1, x2⟩ := x
  cases hres : e.exec x1 x2 σ.store with
  | ok r => exact absurd (Step.proc σ x1 x2 r hx hres) (hstuck _)
  | error u => cases u; rfl

/-- If no execution can fail, a stuck state has no outstanding submissions. -/
theorem stuck_allok_pending_empty [DecidableEq P] {e : Eng V P} {σ : EState V P}
    (hok : ∀ v q st2, ∃ w, e.exec v q st2 = Except.ok w)
    (hstuck : ∀ σ2, ¬ Step e σ σ2) : σ.pending = [] := by
  cases hp : σ.pending with
  | nil => rfl
  | cons x tl =>
    obtain ⟨x1, x2⟩ := x
    have hx : (x1, x2) ∈ σ.pending := by rw [hp]; exact List.mem_cons_self _ _
    have hfail := stuck_pending_fails hstuck (x1, x2) hx
    obtain ⟨w, hw⟩ := hok x1 x2 σ.store
    rw [hw] at hfail
    exact absurd hfail (by simp)

theorem InpReach_closed {g : FFGraph} {S : List Nat}
    (hcl : ∀ x ∈ S, ∀ u ∈ g.inputs x, u ∈ S) {v w : Nat}
    (hv : v ∈ S) (hr : InpReach g v w) : w ∈ S := by
  induction hr with
  | refl v => exact hv
  | step hu _ ihr => exact ihr (hcl _ hv _ hu)

theorem ffTraverse_eq (g : FFGraph) (visited : List Nat) (v : Nat) :
    ffTraverse g visited v =
      if v ∈ visited then visited
      else (g.inputs v).attach.foldl (fun acc u => ffTraverse g acc u.1)
        (visited ++ [v]) := by
  rw [ffTraverse]

/-- Correctness of the recursive `traverse`: the visited set only grows,
the traversed node is recorded, closure under inputs holds except at the
given excluded nodes, every new node is reverse-reachable from the
traversed node, and distinctness is preserved. -/
theorem ffTraverse_spec (g : FFGraph) :
    ∀ (v : Nat) (visited G : List Nat),
      (∀ x ∈ visited, x ∈ G ∨ ∀ u ∈ g.inputs x, u ∈ visited) →
      (∀ x ∈ visited, x ∈ ffTraverse g visited v) ∧
      v ∈ ffTraverse g visited v ∧
      (∀ x ∈ ffTraverse g visited v, x ∈ G ∨ ∀ u ∈ g.inputs x, u ∈ ffTraverse g visited v) ∧
      (∀ w ∈ ffTraverse g visited v, w ∈ visited ∨ InpReach g v w) ∧
      (visited.Nodup → (ffTraverse g visited v).Nodup) := by
  intro v
  induction v using Nat.strong_induction_on with
  | _ v ih =>
    intro visited G hG
    by_cases hv : v ∈ visited
    · rw [ffTraverse_eq, if_pos hv]
      exact ⟨fun x hx => hx, hv, hG, fun w hw => Or.inl hw, fun h => h⟩
    · have hfold : ∀ (l : List {x // x ∈ g.inputs v}) (acc : List Nat),
          (∀ x ∈ acc, x ∈ (v :: G) ∨ ∀ u ∈ g.inputs x, u ∈ acc) →
          (∀ x ∈ acc, x ∈ l.foldl (fun acc u => ffTraverse g acc u.1) acc) ∧
          (∀ x ∈ l.foldl (fun acc u => ffTraverse g acc u.1) acc,
            x ∈ (v :: G) ∨ ∀ u ∈ g.inputs x,
              u ∈ l.foldl (fun acc u => ffTraverse g acc u.1) acc) ∧
          (∀ u ∈ l, u.1 ∈ l.foldl (fun acc u => ffTraverse g acc u.1) acc) ∧
          (∀ w ∈ l.foldl (fun acc u => ffTraverse g acc u.1) acc,
            w ∈ acc ∨ ∃ u ∈ l, InpReach g u.1 w) ∧
          (acc.Nodup → (l.foldl (fun acc u => ffTraverse g acc u.1) acc).Nodup) := by
        intro l
        induction l with
        | nil =>
          intro acc hacc
          exact ⟨fun x hx => hx, hacc, fun u hu => absurd hu (List.not_mem_nil u),
            fun w hw => Or.inl hw, fun h => h⟩
        | cons u0 tl ihl =>
          intro acc hacc
          obtain ⟨m1, m2, m3, m4, m5⟩ := ih u0.1 (g.hlt v u0.1 u0.2) acc (v :: G) hacc
          obtain ⟨k1, k2, k3, k4, k5⟩ := ihl (ffTraverse g acc u0.1) m3
          rw [List.foldl_cons]
          refine ⟨fun x hx => k1 x (m1 x hx), k2, ?_, ?_, fun h => k5 (m5 h)⟩
          · intro u hu
            rcases List.mem_cons.mp hu with rfl | hu2
            · exact k1 _ m2
            · exact k3 u hu2
          · intro w hw
            rcases k4 w hw with h1 | ⟨u, hu, h2⟩
            · rcases m4 w h1 with h2 | h2
              · exact Or.inl h2
              · exact Or.inr ⟨u0, List.mem_cons_self _ _, h2⟩
            · exact Or.inr ⟨u, List.mem_cons_of_mem _ hu, h2⟩
      have hacc0 : ∀ x ∈ visited ++ [v],
          x ∈ (v :: G) ∨ ∀ u ∈ g.inputs x, u ∈ visited ++ [v] := by
        intro x hx
        rcases List.mem_append.mp hx with h1 | h1
        · rcases hG x h1 with h2 | h2
          · exact Or.inl (List.mem_cons_of_mem v h2)
          · exact Or.inr (fun u hu => List.mem_append.mpr (Or.inl (h2 u hu)))
        · have h2 : x = v := by simpa using h1
          exact Or.inl (by rw [h2]; exact List.mem_cons_self v G)
      obtain ⟨k1, k2, k3, k4, k5⟩ := hfold (g.inputs v).attach (visited ++ [v]) hacc0
      rw [ffTraverse_eq, if_neg hv]
      refine ⟨?_, ?_, ?_, ?_, ?_⟩
      · intro x hx
        exact k1 x (List.mem_append.mpr (Or.inl hx))
      · exact k1 v (List.mem_append.mpr (Or.inr (by simp)))
      · intro x hx
        rcases k2 x hx with h1 | h1
        · rcases List.mem_cons.mp h1 with h2 | h2
          · subst h2
            right
            intro u hu
            exact k3 ⟨u, hu⟩ (List.mem_attach _ _)
          · exact Or.inl h2
        · exact Or.inr h1
      · intro w hw
        rcases k4 w hw with h1 | ⟨u, _, h2⟩
        · rcases List.mem_append.mp h1 with h2 | h2
          · exact Or.inl h2
          · have h3 : w = v := by simpa using h2
            exact Or.inr (by rw [h3]; exact InpReach.refl v)
        · exact Or.inr (InpReach.step u.2 h2)
      · intro hnd
        refine k5 (List.Nodup.append hnd (by simp) ?_)
        intro a ha hb
        have h2 : a = v := by simpa using hb
        subst h2
        exact hv ha

/-- `_build_graph` correctness: the discovered node set contains the
outputs, is closed under recorded inputs, consists exactly of the nodes
reverse-reachable from some declared output, and has no duplicates. -/
theorem ffAllNodes_spec (g : FFGraph) (outputs : List Nat) :
    (∀ o ∈ outputs, o ∈ ffAllNodes g outputs) ∧
    (∀ x ∈ ffAllNodes g outputs, ∀ u ∈ g.inputs x, u ∈ ffAllNodes g outputs) ∧
    (∀ w ∈ ffAllNodes g outputs, ∃ o ∈ outputs, InpReach g o w) ∧
    (ffAllNodes g outputs).Nodup := by
  have main : ∀ (l : List Nat) (acc : List Nat),
      (∀ x ∈ acc, ∀ u ∈ g.inputs x, u ∈ acc) →
      (∀ x ∈ acc, x ∈ l.foldl (ffTraverse g) acc) ∧
      (∀ o ∈ l, o ∈ l.foldl (ffTraverse g) acc) ∧
      (∀ x ∈ l.foldl (ffTraverse g) acc, ∀ u ∈ g.inputs x, u ∈ l.foldl (ffTraverse g) acc) ∧
      (∀ w ∈ l.foldl (ffTraverse g) acc, w ∈ acc ∨ ∃ o ∈ l, InpReach g o w) ∧
      (acc.Nodup → (l.foldl (ffTraverse g) acc).Nodup) := by
    intro l
    induction l with
    | nil =>
      intro acc hacc
      exact ⟨fun x hx => hx, fun o ho => absurd ho (List.not_mem_nil o), hacc,
        fun w hw => Or.inl hw, fun h => h⟩
    | cons o0 tl ihl =>
      intro acc hacc
      have hpre : ∀ x ∈ acc, x ∈ ([] : List Nat) ∨ ∀ u ∈ g.inputs x, u ∈ acc :=
        fun x hx => Or.inr (hacc x hx)
      obtain ⟨m1, m2, m3, m4, m5⟩ := ffTraverse_spec g o0 acc [] hpre
      have hcl2 : ∀ x ∈ ffTraverse g acc o0, ∀ u ∈ g.inputs x, u ∈ ffTraverse g acc o0 := by
        intro x hx
        rcases m3 x hx with h1 | h1
        · exact absurd h1 (List.not_mem_nil x)
        · exact h1
      obtain ⟨k1, k2, k3, k4, k5⟩ := ihl (ffTraverse g acc o0) hcl2
      rw [List.foldl_cons]
      refine ⟨fun x hx => k1 x (m1 x hx), ?_, k3, ?_, fun h => k5 (m5 h)⟩
      · intro o ho
        rcases List.mem_cons.mp ho with rfl | ho2
        · exact k1 _ m2
        · exact k2 o ho2
      · intro w hw
        rcases k4 w hw with h1 | ⟨o, ho, h2⟩
        · rcases m4 w h1 with h2 | h2
          · exact Or.inl h2
          · exact Or.inr ⟨o0, List.mem_cons_self _ _, h2⟩
        · exact Or.inr ⟨o, List.mem_cons_of_mem _ ho, h2⟩
  obtain ⟨_, k2, k3, k4, k5⟩ := main outputs []
    (fun x hx => absurd hx (List.not_mem_nil x))
  refine ⟨k2, k3, ?_, k5 List.nodup_nil⟩
  intro w hw
  rcases k4 w hw with h1 | h1
  · exact absurd h1 (List.not_mem_nil w)
  · exact h1

/-- C8 core: a node is in the built graph exactly when it is
reverse-reachable from a declared output through recorded inputs. -/
theorem ffAllNodes_iff_reach (g : FFGraph) (outputs : List Nat) (w : Nat) :
    w ∈ ffAllNodes g outputs ↔ ∃ o ∈ outputs, InpReach g o w := by
  constructor
  · exact (ffAllNodes_spec g outputs).2.2.1 w
  · rintro ⟨o, ho, hreach⟩
    exact InpReach_closed (ffAllNodes_spec g outputs).2.1
      ((ffAllNodes_spec g outputs).1 o ho) hreach

theorem ffDownstream_mem {g : FFGraph} {outputs : List Nat} {u d : Nat}
    (h : d ∈ ffDownstream g outputs u) :
    u ∈ g.inputs d ∧ d ∈ ffAllNodes g outputs := by
  simp only [ffDownstream, List.mem_flatMap] at h
  obtain ⟨w, hw, hrep⟩ := h
  obtain ⟨hne, rfl⟩ := List.mem_replicate.mp hrep
  exact ⟨List.count_pos_iff.mp (Nat.pos_of_ne_zero hne), hw⟩

theorem count_flatMap_replicate (l : List Nat) (hnd : l.Nodup) (cnt : Nat → Nat)
    (d : Nat) (hd : d ∈ l) :
    (l.flatMap (fun v => List.replicate (cnt v) v)).count d = cnt d := by
  induction l with
  | nil => cases hd
  | cons a tl ih =>
    rcases List.nodup_cons.mp hnd with ⟨hna, hndtl⟩
    rw [List.flatMap_cons, List.count_append]
    rcases List.mem_cons.mp hd with rfl | hdtl
    · have h1 : (List.replicate (cnt d) d).count d = cnt d := by simp
      have h2 : (tl.flatMap (fun v => List.replicate (cnt v) v)).count d = 0 := by
        rw [List.count_eq_zero]
        intro hc
        simp only [List.mem_flatMap] at hc
        obtain ⟨w, hw, hrep⟩ := hc
        obtain ⟨_, rfl⟩ := List.mem_replicate.mp hrep
        exact hna hw
      omega
    · have hda : d ≠ a := by rintro rfl; exact hna hdtl
      have h1 : (List.replicate (cnt a) a).count d = 0 := by
        rw [List.count_eq_zero]
        intro hc
        obtain ⟨_, h2⟩ := List.mem_replicate.mp hc
        exact hda h2
      have h3 := ih hndtl hdtl
      omega

/-- The built functional graph is well-formed. -/
theorem ffEng_wf (g : FFGraph) (outputs : List Nat) (nm : Nat → Nat)
    (spec : Nat → TaskSpec V) (params : Nat → List Nat)
    (bodyPos : Nat → Nat → Except Unit (Option V))
    (bodyKw : Nat → List (Nat × Option V) → Except Unit (Option V))
    (uni : Nat → Nat → ℚ → ℚ → ℚ) :
    WfG (ffEng g outputs nm spec params bodyPos bodyKw uni) := by
  constructor
  · exact (ffAllNodes_spec g outputs).2.2.2
  · exact fun v hv u hu => (ffAllNodes_spec g outputs).2.1 v hv u hu
  · intro v _ d hd
    exact (ffDownstream_mem hd).2
  · intro u _ d hd
    show (g.inputs d).count u = (ffDownstream g outputs u).count d
    rw [ffDownstream,
      count_flatMap_replicate _ (ffAllNodes_spec g outputs).2.2.2 _ _ hd]

/-- The built functional graph is acyclic: edges point from earlier-built
to later-built objects. -/
theorem ffEng_acyclic (g : FFGraph) (outputs : List Nat) :
    ¬ CycleIn (ffAllNodes g outputs) (ffDownstream g outputs) := by
  rintro ⟨v, _, hp⟩
  have hlt : ∀ a b, PathPlus (ffDownstream g outputs) a b → a < b := by
    intro a b hp2
    induction hp2 with
    | single h => exact g.hlt _ _ (ffDownstream_mem h).1
    | cons h _ ih => exact lt_trans (g.hlt _ _ (ffDownstream_mem h).1) ih
  exact absurd (hlt v v hp) (lt_irrefl v)

/-- In a write-all engine (`FunctionalFlow.run`), every processed node has
a Result Store entry under its name. -/
theorem writeAll_processed_has_key [DecidableEq P] {e : Eng V P}
    (hwa : e.writeAll = true) {σ : EState V P} (hr : Reach e σ) :
    ∀ v ∈ σ.processed, e.nm v ∈ σ.store.map Prod.fst := by
  induction hr with
  | init => intro v hv; exact absurd hv (List.not_mem_nil v)
  | step hr2 hstep ih =>
    cases hstep with
    | proc v p r hmem hok =>
      intro x hx
      rw [processOne_processed] at hx
      rw [processOne_store]
      unfold writeStore
      rw [if_pos hwa, List.map_append]
      rcases List.mem_append.mp hx with h1 | h1
      · exact List.mem_append.mpr (Or.inl (ih x h1))
      · have h2 : x = v := by simpa using h1
        subst h2
        exact List.mem_append.mpr (Or.inr (by simp))

/-- In a drop-`None` engine (`DAG.run` / `Flow.run`), a node whose
execution always yields Python `None` never gets a Result Store entry. -/
theorem none_exec_no_entry [DecidableEq P] {e : Eng V P} (hwf : WfG e)
    (hinj : ∀ a ∈ e.nodes, ∀ b ∈ e.nodes, e.nm a = e.nm b → a = b)
    {t : Nat} (ht : t ∈ e.nodes)
    (hnone : ∀ q st2, e.exec t q st2 = Except.ok none)
    (hwa : e.writeAll = false)
    {σ : EState V P} (hr : Reach e σ) : e.nm t ∉ σ.store.map Prod.fst := by
  intro hc
  obtain ⟨⟨k, w⟩, hkw, hfst⟩ := List.mem_map.mp hc
  obtain ⟨u, hu, h2, ⟨q, stq, h3⟩, h4⟩ := (invA_reach hwf hr).store_src (k, w) hkw
  have hunode := (invA_reach hwf hr).proc_sub u hu
  have hut : u = t := hinj u hunode t ht (by rw [h2]; exact hfst)
  subst hut
  rw [hnone q stq] at h3
  injection h3 with h5
  exact h4 hwa h5.symm

theorem not_cycle_of_hasCycleB_false (nodes : List Nat) (g : Nat → List Nat)
    (hcl : ∀ v ∈ nodes, ∀ d ∈ g v, d ∈ nodes) (hnd : nodes.Nodup)
    (hb : hasCycleB nodes g = false) : ¬ CycleIn nodes g := by
  intro hc
  have h2 := (hasCycleB_iff_cycle nodes g hcl hnd).mpr hc
  rw [h2] at hb
  exact absurd hb (by decide)

theorem lookup_none_of_not_mem {results : List (Nat × Option V)} {k : Nat}
    (h : k ∉ results.map Prod.fst) : results.lookup k = none := by
  induction results with
  | nil => rfl
  | cons a tl ih =>
    obtain ⟨a1, a2⟩ := a
    simp only [List.map_cons, List.mem_cons] at h
    push_neg at h
    have hne : (k == a1) = false := beq_eq_false_iff_ne.mpr h.1
    simp only [List.lookup, hne]
    exact ih h.2

/-- C2: for every graph containing a cycle — a self-loop or a multi-node
cycle, also in a component disconnected from the roots — `run` raises
`DAGCycleError` at the gate and no scheduler state is ever reached, so zero
task bodies run; for every acyclic graph the cycle check passes.  The
statement is generic in the engine, covering `DAG.run`, `Flow.run` and
`FunctionalFlow.run`, whose `_has_cycle` methods are the same three-color
DFS modelled by `hasCycleB`. -/
theorem claim2_cycle_gate [DecidableEq P] (e : Eng V P) (hwf : WfG e) :
    (CycleIn e.nodes e.downstream ↔ hasCycleB e.nodes e.downstream = true) ∧
    (CycleIn e.nodes e.downstream →
      runGate e = RunGateResult.cycleError ∧ ¬∃ σ, RunReach e σ) ∧
    (¬ CycleIn e.nodes e.downstream → runGate e = RunGateResult.proceed) := by
  have hiff := hasCycleB_iff_cycle e.nodes e.downstream
    (fun v hv d hd => hwf.down_mem v hv d hd) hwf.nodup
  refine ⟨hiff.symm, ?_, ?_⟩
  · intro hcyc
    have hb : hasCycleB e.nodes e.downstream = true := hiff.mpr hcyc
    constructor
    · simp [runGate, hb]
    · rintro ⟨σ, hgate, _⟩
      simp [runGate, hb] at hgate
  · intro hnc
    have hb : hasCycleB e.nodes e.downstream = false := by
      cases h : hasCycleB e.nodes e.downstream
      · rfl
      · exact absurd (hiff.mp h) hnc
    simp [runGate, hb]

/-- C2 witness graph: a single task with a self-loop. -/
theorem claim2_witness :
    WfG exCycEng ∧
    ((CycleIn exCycEng.nodes exCycEng.downstream ↔
        hasCycleB exCycEng.nodes exCycEng.downstream = true) ∧
      (CycleIn exCycEng.nodes exCycEng.downstream →
        runGate exCycEng = RunGateResult.cycleError ∧ ¬∃ σ, RunReach exCycEng σ) ∧
      (¬ CycleIn exCycEng.nodes exCycEng.downstream →
        runGate exCycEng = RunGateResult.proceed)) :=
  ⟨⟨by decide, by decide, by decide, by decide⟩,
    claim2_cycle_gate exCycEng ⟨by decide, by decide, by decide, by decide⟩⟩

theorem exDag_edge_lt : ∀ a b : Nat, b ∈ exDownstream a → a < b := by
  intro a b h
  match a with
  | 0 => simp [exDownstream] at h; omega
  | 1 => simp [exDownstream] at h; omega
  | n + 2 => simp [exDownstream] at h

theorem exDag_acyclic : ¬ CycleIn [0, 1, 2] exDownstream := by
  rintro ⟨v, _, hp⟩
  have hlt : ∀ a b, PathPlus exDownstream a b → a < b := by
    intro a b hp2
    induction hp2 with
    | single h => exact exDag_edge_lt _ _ h
    | cons h _ ih => exact lt_trans (exDag_edge_lt _ _ h) ih
  exact absurd (hlt v v hp) (lt_irrefl v)

/-- C3: in every reachable state of the scheduler on a well-formed acyclic
graph — the loop shared by `DAG.run`, `Flow.run` and `FunctionalFlow.run` —
every submitted node (outstanding or already processed) has all of its
upstream occurrences processed, and its tracked in-degree of unresolved
dependencies is zero.  A node's body runs only after submission, so a body
is never invoked until every upstream node has resolved; skipped nodes are
processed like any other completion and hence count as resolved. -/
theorem claim3_topological [DecidableEq P] (e : Eng V P) (hwf : WfG e)
    (_hacyc : ¬ CycleIn e.nodes e.downstream)
    (σ : EState V P) (hr : Reach e σ) :
    (∀ v ∈ pendingNodes σ, ∀ u ∈ e.upstream v, u ∈ σ.processed) ∧
    (∀ v ∈ σ.processed, ∀ u ∈ e.upstream v, u ∈ σ.processed) ∧
    (∀ v ∈ e.nodes, v ∈ pendingNodes σ ∨ v ∈ σ.processed → σ.indeg v = 0) := by
  have hinv := invA_reach hwf hr
  refine ⟨hinv.pend_up, hinv.proc_up, ?_⟩
  intro v hvn hv
  rcases hv with h | h
  · exact indeg_eq_zero_of_processed hinv hvn (hinv.pend_up v h)
  · exact indeg_eq_zero_of_processed hinv hvn (hinv.proc_up v h)

theorem exσ2_reach : Reach exDagEng exσ2 := by
  have h1 : Step exDagEng (initState exDagEng)
      (processOne exDagEng (initState exDagEng) 0 [] (some 10)) :=
    Step.proc _ 0 [] (some 10) (by decide) rfl
  have h2 : Step exDagEng
      (processOne exDagEng (initState exDagEng) 0 [] (some 10)) exσ2 :=
    Step.proc _ 1 [some 10] (some 20) (by decide) rfl
  exact Reach.step (Reach.step Reach.init h1) h2

/-- C3 witness: the chain engine, at the state with nodes 0 and 1
processed. -/
theorem claim3_witness :
    (∀ v ∈ pendingNodes exσ2, ∀ u ∈ exDagEng.upstream v, u ∈ exσ2.processed) ∧
    (∀ v ∈ exσ2.processed, ∀ u ∈ exDagEng.upstream v, u ∈ exσ2.processed) ∧
    (∀ v ∈ exDagEng.nodes, v ∈ pendingNodes exσ2 ∨ v ∈ exσ2.processed →
      exσ2.indeg v = 0) :=
  claim3_topological exDagEng ⟨by decide, by decide, by decide, by decide⟩
    exDag_acyclic exσ2 exσ2_reach

/-- C9: in every reachable state of the `DAG.run` / `Flow.run` scheduler
loop (generic in the engine) over a graph with unique node names, each node
has been submitted at most once — the outstanding and processed lists
together contain it at most once — and the Result Store keys are pairwise
distinct, so an entry, once written, is never overwritten within the
run. -/
theorem claim9_at_most_once [DecidableEq P] (e : Eng V P) (hwf : WfG e)
    (hinj : ∀ a ∈ e.nodes, ∀ b ∈ e.nodes, e.nm a = e.nm b → a = b)
    (σ : EState V P) (hr : Reach e σ) :
    (∀ v, (pendingNodes σ ++ σ.processed).count v ≤ 1) ∧
    (σ.store.map Prod.fst).Nodup :=
  ⟨(invA_reach hwf hr).once, store_keys_nodup_reach hwf hinj hr⟩

/-- C9 witness: the chain engine after two completions. -/
theorem claim9_witness :
    (∀ v, (pendingNodes exσ2 ++ exσ2.processed).count v ≤ 1) ∧
    (exσ2.store.map Prod.fst).Nodup :=
  claim9_at_most_once exDagEng ⟨by decide, by decide, by decide, by decide⟩
    (by decide) exσ2 exσ2_reach

/-- C10: in `DAG.run` and `Flow.run` (drop-`None` engines) a completion
whose result is Python `None` writes no Result Store entry, and both a
`when`-skip and a successfully returning `None` body produce exactly that
`ok none` outcome — so the two are indistinguishable in the returned
results; in `FunctionalFlow.run` (write-all engine) every completed node,
skipped ones included, gets an entry under its name. -/
theorem claim10_none_results :
    (∀ (A Q : Type) [DecidableEq Q] (e : Eng A Q) (σ : EState A Q) (v : Nat) (q : Q),
      e.writeAll = false → (processOne e σ v q none).store = σ.store) ∧
    (∀ (A Q : Type) [DecidableEq Q] (e : Eng A Q) (σ : EState A Q) (v : Nat) (q : Q)
      (r : Option A),
      e.writeAll = true → (processOne e σ v q r).store = σ.store ++ [(e.nm v, r)]) ∧
    (∀ (A : Type) (t : TaskSpec A) (pcond : Option A → Bool) (a : Option A)
      (rest : List (Option A)) (body : Nat → Except Unit (Option A))
      (uni : Nat → ℚ → ℚ → ℚ),
      t.whenP = some pcond → pcond a = false →
      (taskCall t (a :: rest) body uni).result = Except.ok none) ∧
    (∀ (A : Type) (t : TaskSpec A) (args : List (Option A))
      (body : Nat → Except Unit (Option A)) (uni : Nat → ℚ → ℚ → ℚ),
      t.whenP = none → body 0 = Except.ok none →
      (taskCall t args body uni).result = Except.ok none) ∧
    (∀ (A Q : Type) [DecidableEq Q] (e : Eng A Q), e.writeAll = true →
      ∀ σ, Reach e σ → ∀ v ∈ σ.processed, e.nm v ∈ σ.store.map Prod.fst) := by
  refine ⟨?_, ?_, ?_, ?_, ?_⟩
  · intro A Q _ e σ v q hwa
    rw [processOne_store]
    unfold writeStore
    rw [if_neg (by rw [hwa]; decide)]
  · intro A Q _ e σ v q r hwa
    rw [processOne_store]
    unfold writeStore
    rw [if_pos hwa]
  · intro A t pcond a rest body uni hw hp
    rw [taskCall_skip_false t pcond hw a rest hp body uni]
  · intro A t args body uni hw hb
    rw [taskCall_ok t hw args body none hb uni]
  · intro A Q _ e hwa σ hr
    exact writeAll_processed_has_key hwa hr

/-- C10 witness: the drop-`None` chain engine leaves the store unchanged on
a `None` completion, and the write-all skip engine records its processed
node. -/
theorem claim10_witness :
    (processOne exDagEng (initState exDagEng) 0 [] none).store =
      (initState exDagEng).store ∧
    (processOne ffSkipEng (initState ffSkipEng) 0 () none).store =
      (initState ffSkipEng).store ++ [(ffSkipEng.nm 0, none)] :=
  ⟨claim10_none_results.1 Nat (List (Option Nat)) exDagEng (initState exDagEng) 0 [] rfl,
    claim10_none_results.2.1 Nat Unit ffSkipEng (initState ffSkipEng) 0 () none rfl⟩

/-- C6: a task with `retries = 3` whose body fails twice then succeeds
returns the success value with exactly 3 invocations and exactly 2 retry
events; each wait is `current_delay + jitter` with the jitter drawn by
`uniform(0, 0.1·current_delay)` (so, for a bounded oracle, the wait lies in
`[current_delay, 1.1·current_delay]`), `current_delay` starts from `delay`
on every invocation and is multiplied by `backoff` after each retry. -/
theorem claim6_retry_then_succeed (t : TaskSpec V) (hw : t.whenP = none)
    (hr : t.retries = 3) (args : List (Option V))
    (body : Nat → Except Unit (Option V)) (v : Option V)
    (hb0 : body 0 = Except.error ()) (hb1 : body 1 = Except.error ())
    (hb2 : body 2 = Except.ok v) (uni : Nat → ℚ → ℚ → ℚ)
    (huni : ∀ i a b, a ≤ b → a ≤ uni i a b ∧ uni i a b ≤ b)
    (hd : 0 ≤ t.delay) (hβ : 0 ≤ t.backoff) :
    taskCall t args body uni =
      ⟨Except.ok v, 3,
        [t.delay + uni 0 0 (t.delay * (1 / 10)),
         t.delay * t.backoff + uni 1 0 (t.delay * t.backoff * (1 / 10))]⟩ ∧
    (t.delay ≤ t.delay + uni 0 0 (t.delay * (1 / 10)) ∧
      t.delay + uni 0 0 (t.delay * (1 / 10)) ≤ t.delay * (11 / 10)) ∧
    (t.delay * t.backoff ≤
        t.delay * t.backoff + uni 1 0 (t.delay * t.backoff * (1 / 10)) ∧
      t.delay * t.backoff + uni 1 0 (t.delay * t.backoff * (1 / 10)) ≤
        t.delay * t.backoff * (11 / 10)) := by
  refine ⟨taskCall_failTwiceThenOk t hw hr args body v hb0 hb1 hb2 uni, ?_, ?_⟩
  · have h1 := huni 0 0 (t.delay * (1 / 10)) (mul_nonneg hd (by norm_num))
    exact ⟨by linarith [h1.1], by linarith [h1.2]⟩
  · have hdb : 0 ≤ t.delay * t.backoff := mul_nonneg hd hβ
    have h1 := huni 1 0 (t.delay * t.backoff * (1 / 10)) (mul_nonneg hdb (by norm_num))
    exact ⟨by linarith [h1.1], by linarith [h1.2]⟩

/-- C6 witness at `delay = 1`, `backoff = 2`. -/
theorem claim6_witness :
    taskCall (⟨3, 1, 2, none⟩ : TaskSpec Nat) [] c6Body c6Uni =
      ⟨Except.ok (some 5), 3,
        [(1 : ℚ) + c6Uni 0 0 (1 * (1 / 10)),
         (1 : ℚ) * 2 + c6Uni 1 0 (1 * 2 * (1 / 10))]⟩ ∧
    ((1 : ℚ) ≤ 1 + c6Uni 0 0 (1 * (1 / 10)) ∧
      (1 : ℚ) + c6Uni 0 0 (1 * (1 / 10)) ≤ 1 * (11 / 10)) ∧
    ((1 : ℚ) * 2 ≤ 1 * 2 + c6Uni 1 0 (1 * 2 * (1 / 10)) ∧
      (1 : ℚ) * 2 + c6Uni 1 0 (1 * 2 * (1 / 10)) ≤ 1 * 2 * (11 / 10)) :=
  claim6_retry_then_succeed ⟨3, 1, 2, none⟩ rfl rfl [] c6Body (some 5) rfl rfl rfl
    c6Uni (fun _ a b h => ⟨le_refl a, h⟩) (by norm_num) (by norm_num)

/-- C7: in `Flow._execute_task` and `FunctionalFlow._execute_node`,
whenever at least one accumulated result matches a declared parameter name,
the raw wrapped function is invoked directly with exactly the filtered
keyword arguments — one invocation, no retry events, outcome independent
of the Task's `retries` and `when` attributes; the `Task.__call__`
retry/skip contract applies only when no result matches a parameter name
(or, for `Flow`, the snapshot is empty; for `FunctionalFlow`, the node has
no recorded inputs), and then the Task is invoked with no arguments. -/
theorem claim7_raw_bypass (spec : Nat → TaskSpec V) (params : Nat → List Nat)
    (bodyPos : Nat → Nat → Except Unit (Option V))
    (bodyKw : Nat → List (Nat × Option V) → Except Unit (Option V))
    (uni : Nat → Nat → ℚ → ℚ → ℚ) (v : Nat) (inputs : Nat → List Nat) :
    (∀ snapshot : List (Nat × Option V), snapshot ≠ [] →
      filteredKwargs (params v) snapshot ≠ [] →
      flowExecuteTask spec params bodyPos bodyKw uni v snapshot =
        ⟨bodyKw v (filteredKwargs (params v) snapshot), 1, []⟩) ∧
    (∀ snapshot : List (Nat × Option V),
      snapshot = [] ∨ filteredKwargs (params v) snapshot = [] →
      flowExecuteTask spec params bodyPos bodyKw uni v snapshot =
        taskCall (spec v) [] (bodyPos v) (uni v)) ∧
    (∀ results : List (Nat × Option V), inputs v ≠ [] →
      filteredKwargs (params v) results ≠ [] →
      ffExecuteNode inputs spec params bodyPos bodyKw uni v results =
        ⟨bodyKw v (filteredKwargs (params v) results), 1, []⟩) ∧
    (∀ results : List (Nat × Option V),
      inputs v = [] ∨ filteredKwargs (params v) results = [] →
      ffExecuteNode inputs spec params bodyPos bodyKw uni v results =
        taskCall (spec v) [] (bodyPos v) (uni v)) := by
  refine ⟨?_, ?_, ?_, ?_⟩
  · intro snap h1 h2
    simp only [flowExecuteTask]
    rw [if_neg (by simp [h1]), if_neg (by simp [h2])]
  · intro snap h1
    rcases h1 with h1 | h1
    · simp only [flowExecuteTask]
      rw [if_pos (by simp [h1])]
    · simp only [flowExecuteTask]
      by_cases h2 : snap.isEmpty
      · rw [if_pos h2]
      · rw [if_neg h2, if_pos (by simp [h1])]
  · intro results h1 h2
    simp only [ffExecuteNode]
    rw [if_neg (by simp [h1]), if_neg (by simp [h2])]
  · intro results h1
    rcases h1 with h1 | h1
    · simp only [ffExecuteNode]
      rw [if_pos (by simp [h1])]
    · simp only [ffExecuteNode]
      by_cases h2 : (inputs v).isEmpty
      · rw [if_pos h2]
      · rw [if_neg h2, if_pos (by simp [h1])]

/-- C7 witness: a task whose declared parameter `0` matches a result entry
is raw-invoked; with an empty snapshot the Task contract applies. -/
theorem claim7_witness :
    ([((0 : Nat), some (5 : Nat))] ≠ ([] : List (Nat × Option Nat)) ∧
      filteredKwargs [0] [((0 : Nat), some (5 : Nat))] ≠ [] ∧
      flowExecuteTask exSpec (fun _ => [0]) (fun v _ => Except.ok (some v))
          (fun v _ => Except.ok (some v)) exUni 3 [(0, some 5)] =
        ⟨Except.ok (some 3), 1, []⟩) ∧
    flowExecuteTask exSpec (fun _ => [0]) (fun v _ => Except.ok (some v))
        (fun v _ => Except.ok (some v)) exUni 3 [] =
      taskCall (exSpec 3) [] ((fun v _ => Except.ok (some v)) 3) (exUni 3) := by
  constructor
  · refine ⟨by decide, by decide, ?_⟩
    have h := (claim7_raw_bypass exSpec (fun _ => [0]) (fun v _ => Except.ok (some v))
      (fun v _ => Except.ok (some v)) exUni 3 exUpstream).1 [(0, some 5)]
      (by decide) (by decide)
    rw [h]
  · exact (claim7_raw_bypass exSpec (fun _ => [0]) (fun v _ => Except.ok (some v))
      (fun v _ => Except.ok (some v)) exUni 3 exUpstream).2.1 [] (Or.inl rfl)

/-- C1 counterexample: in `DAG.run` on the chain `0 → 1 → 2`, after node 0
completes with value 10 and node 1 with value 20, node 2 becomes ready and
is submitted with the positional payload `[some 20]` — node 1's result, by
upstream position — although named-result injection for a callable
declaring the parameter name `0` would supply `[(0, some 10)]`.  Node 0's
value 10 is not supplied at all: under `DAG.run` a downstream task cannot
receive an ancestor's result by naming it, refuting the claim for the
`DAG.run` front-end. -/
theorem claim1_counterexample :
    Reach exDagEng exσ2 ∧
    exσ2.pending = [(2, [some 20])] ∧
    exσ2.store = [(0, some 10), (1, some 20)] ∧
    specNamedInjection [0] exσ2.store = [((0 : Nat), some (10 : Nat))] ∧
    some (10 : Nat) ∉ ([some 20] : List (Option Nat)) :=
  ⟨exσ2_reach, rfl, rfl, rfl, by decide⟩

/-- C1 amended: `Flow.run` and `FunctionalFlow.run` perform named-result
injection exactly as the spec words it — the callable's declared parameter
names are matched against the accumulated Result Store, every matching
entry is supplied and the rest are omitted, so a node receives any
ancestor's result by naming it, independently of its edges — while
`DAG.run` inspects no parameter names and passes one positional argument
per immediate upstream entry (`results.get(u.name)`). -/
theorem claim1_amended (A : Type) :
    (∀ (params : List Nat) (results : List (Nat × Option A)),
      filteredKwargs params results = specNamedInjection params results) ∧
    (∀ (params : List Nat) (results : List (Nat × Option A)) (q : Nat) (w : Option A),
      (q, w) ∈ filteredKwargs params results ↔
        q ∈ params ∧ results.lookup q = some w) ∧
    (∀ (upstream : Nat → List Nat) (nm : Nat → Nat) (v : Nat)
      (results : List (Nat × Option A)),
      dagArgs upstream nm v results =
        (upstream v).map (fun u => (results.lookup (nm u)).getD none)) := by
  refine ⟨fun _ _ => rfl, ?_, fun _ _ _ _ => rfl⟩
  intro params results q w
  constructor
  · intro hmem
    obtain ⟨p1, hp1, hmap⟩ := List.mem_filterMap.mp hmem
    rw [Option.map_eq_some'] at hmap
    obtain ⟨x, hx, hpx⟩ := hmap
    have h1 : p1 = q ∧ x = w := by
      constructor
      · exact congrArg Prod.fst hpx
      · exact congrArg Prod.snd hpx
    obtain ⟨rfl, rfl⟩ := h1
    exact ⟨hp1, hx⟩
  · rintro ⟨hq, hl⟩
    refine List.mem_filterMap.mpr ⟨q, hq, ?_⟩
    rw [hl]
    rfl

/-- C1 amended-claim witness at concrete inputs. -/
theorem claim1_amended_witness :
    filteredKwargs [0] [((0 : Nat), some (5 : Nat))] =
      specNamedInjection [0] [((0 : Nat), some (5 : Nat))] ∧
    (((0 : Nat), some (5 : Nat)) ∈ filteredKwargs [0] [((0 : Nat), some (5 : Nat))] ↔
      (0 : Nat) ∈ [(0 : Nat)] ∧
        ([((0 : Nat), some (5 : Nat))]).lookup 0 = some (some 5)) :=
  ⟨(claim1_amended Nat).1 [0] [(0, some 5)],
    (claim1_amended Nat).2.1 [0] [(0, some 5)] 0 (some 5)⟩

/-- The skip fixture's discovered node set. -/
theorem ffSkip_allNodes : ffAllNodes exFFGraph [0] = [0] := by
  show List.foldl (ffTraverse exFFGraph) [] [0] = [0]
  rw [List.foldl_cons, List.foldl_nil, ffTraverse_eq]
  simp [exFFGraph]

/-- The skip fixture's initial pending list. -/
theorem ffSkip_init_pending : (initState ffSkipEng).pending = [(0, ())] := by
  show ((ffSkipEng.nodes.filter fun v => (ffSkipEng.upstream v).length == 0).map
      fun v => (v, ffSkipEng.payload v [])) = [(0, ())]
  have h : ffSkipEng.nodes = [0] := ffSkip_allNodes
  rw [h]
  rfl

/-- C5 counterexample: in `FunctionalFlow.run` a skipped task does get a
Result Store entry.  The fixture's single node has a `when` condition and
no inputs, so `_execute_node` calls `Task.__call__` with no arguments and
the task is skipped with zero body invocations; the run then stores its
`None` result under its name (functional.py line 282), so the Result Store
does contain an entry for the skipped node, contrary to the claim. -/
theorem claim5_counterexample :
    Reach ffSkipEng ffSkipσ1 ∧
    (ffExecuteNode exFFGraph.inputs ffSkipSpec (fun _ => [])
        (fun v _ => Except.ok (some (10 * (v + 1))))
        (fun v _ => Except.ok (some (10 * (v + 1)))) exUni 0 []).invocations = 0 ∧
    ffSkipσ1.store = [(0, none)] ∧
    (0 : Nat) ∈ ffSkipσ1.store.map Prod.fst := by
  refine ⟨?_, rfl, rfl, by decide⟩
  refine Reach.step Reach.init ?_
  exact Step.proc (initState ffSkipEng) 0 () none
    (by rw [ffSkip_init_pending]; exact List.mem_singleton.mpr rfl) rfl

/-- C5 amended: a false `when` condition (or a `when` with no positional
arguments) skips the task — no body invocation, no retry, no error, result
Python `None`; in the drop-`None` engines (`DAG.run`, `Flow.run`) an
always-skipped node leaves no Result Store entry, in `FunctionalFlow.run`
an entry with value `None` is written (see the counterexample); downstream
in-degrees are decremented exactly as for a success, acyclic runs still
complete, and a missing name is observed by downstream positional
arguments as `None`. -/
theorem claim5_conditional_skip :
    (∀ (A : Type) (t : TaskSpec A) (pcond : Option A → Bool) (a : Option A)
      (rest : List (Option A)) (body : Nat → Except Unit (Option A))
      (uni : Nat → ℚ → ℚ → ℚ), t.whenP = some pcond → pcond a = false →
      taskCall t (a :: rest) body uni = ⟨Except.ok none, 0, []⟩) ∧
    (∀ (A : Type) (t : TaskSpec A) (pcond : Option A → Bool)
      (body : Nat → Except Unit (Option A)) (uni : Nat → ℚ → ℚ → ℚ),
      t.whenP = some pcond → taskCall t [] body uni = ⟨Except.ok none, 0, []⟩) ∧
    (∀ (A Q : Type) [DecidableEq Q] (e : Eng A Q), WfG e →
      (∀ a ∈ e.nodes, ∀ b ∈ e.nodes, e.nm a = e.nm b → a = b) →
      ∀ t ∈ e.nodes, (∀ q st2, e.exec t q st2 = Except.ok none) →
      e.writeAll = false →
      ∀ σ, Reach e σ → e.nm t ∉ σ.store.map Prod.fst) ∧
    (∀ (A Q : Type) [DecidableEq Q] (e : Eng A Q) (σ : EState A Q) (v : Nat)
      (q : Q) (d : Nat),
      (processOne e σ v q none).indeg d =
        σ.indeg d - ((e.downstream v).count d : Int)) ∧
    (∀ (A Q : Type) [DecidableEq Q] (e : Eng A Q), WfG e →
      ¬ CycleIn e.nodes e.downstream →
      (∀ v2 q st2, ∃ w, e.exec v2 q st2 = Except.ok w) →
      ∀ σ, Reach e σ → (∀ σ2, ¬ Step e σ σ2) → ∀ v ∈ e.nodes, v ∈ σ.processed) ∧
    (∀ (A : Type) (results : List (Nat × Option A)) (k : Nat),
      k ∉ results.map Prod.fst → (results.lookup k).getD none = none) := by
  refine ⟨?_, ?_, ?_, ?_, ?_, ?_⟩
  · intro A t pcond a rest body uni hw hp
    exact taskCall_skip_false t pcond hw a rest hp body uni
  · intro A t pcond body uni hw
    exact taskCall_skip_noargs t pcond hw body uni
  · intro A Q _ e hwf hinj t ht hnone hwa σ hr
    exact none_exec_no_entry hwf hinj ht hnone hwa hr
  · intro A Q _ e σ v q d
    rw [processOne_indeg]
    exact unlockAll_ind_spec _ _ _ _ _ d
  · intro A Q _ e hwf hacyc hok σ hr hstuck
    exact pending_empty_all_processed hwf hacyc hr (stuck_allok_pending_empty hok hstuck)
  · intro A results k hk
    rw [lookup_none_of_not_mem hk]
    rfl

/-- C5 amended-claim witness: a concrete skip and a concrete decrement. -/
theorem claim5_witness :
    taskCall (⟨0, 1, 2, some (fun x => x = some 60)⟩ : TaskSpec Nat)
        [some 30] c6Body c6Uni = ⟨Except.ok none, 0, []⟩ ∧
    (processOne exDagEng (initState exDagEng) 0 [] none).indeg 1 =
      (initState exDagEng).indeg 1 - ((exDagEng.downstream 0).count 1 : Int) :=
  ⟨claim5_conditional_skip.1 Nat ⟨0, 1, 2, some (fun x => x = some 60)⟩
      (fun x => x = some 60) (some 30) [] c6Body c6Uni rfl (by decide),
    claim5_conditional_skip.2.2.2.1 Nat (List (Option Nat)) exDagEng
      (initState exDagEng) 0 [] 1⟩

/-- Acyclicity of the retry-exhaustion fixture. -/
theorem c4_acyclic : ¬ CycleIn [0, 1] c4Downstream := by
  rintro ⟨v, _, hp⟩
  have hedge : ∀ a b : Nat, b ∈ c4Downstream a → a < b := by
    intro a b h
    match a with
    | 0 => simp [c4Downstream] at h; omega
    | n + 1 => simp [c4Downstream] at h
  have hlt : ∀ a b, PathPlus c4Downstream a b → a < b := by
    intro a b hp2
    induction hp2 with
    | single h => exact hedge _ _ h
    | cons h _ ih => exact lt_trans (hedge _ _ h) ih
  exact absurd (hlt v v hp) (lt_irrefl v)

/-- C4: a task with `retries = 2` whose body always raises surfaces its
error after exactly 2 retry attempts — 3 body invocations — and since the
failure is re-raised before the unlock loop, the failing task is never
processed, no node downstream of it is ever submitted or processed, and a
run that can go no further is stopped with exactly that task's error
outstanding. -/
theorem claim4_retry_exhaustion {A : Type} [DecidableEq A] (nodes : List Nat)
    (upstream downstream : Nat → List Nat) (nm : Nat → Nat)
    (spec : Nat → TaskSpec A)
    (body : Nat → List (Option A) → Nat → Except Unit (Option A))
    (uni : Nat → Nat → ℚ → ℚ → ℚ) (f : Nat)
    (e : Eng A (List (Option A)))
    (he : e = dagEng nodes upstream downstream nm spec body uni)
    (hwf : WfG e) (hacyc : ¬ CycleIn nodes downstream) (hf : f ∈ nodes)
    (hrf : (spec f).retries = 2) (hwfn : (spec f).whenP = none)
    (hbody : ∀ args i, body f args i = Except.error ())
    (hothers : ∀ v ∈ nodes, v ≠ f → ∀ q st2, ∃ w, e.exec v q st2 = Except.ok w) :
    (∀ args, taskCall (spec f) args (body f args) (uni f) =
      ⟨Except.error (), 3,
        [(spec f).delay + uni f 0 0 ((spec f).delay * (1 / 10)),
         (spec f).delay * (spec f).backoff +
           uni f 1 0 ((spec f).delay * (spec f).backoff * (1 / 10))]⟩) ∧
    (∀ σ, Reach e σ → f ∉ σ.processed ∧
      ∀ d ∈ downstream f, d ∉ pendingNodes σ ∧ d ∉ σ.processed) ∧
    (∀ σ, Reach e σ → (∀ σ2, ¬ Step e σ σ2) →
      σ.pending ≠ [] ∧ ∀ x ∈ σ.pending, x.1 = f ∧
        e.exec x.1 x.2 σ.store = Except.error ()) := by
  subst he
  have hcall : ∀ args, taskCall (spec f) args (body f args) (uni f) =
      ⟨Except.error (), 3,
        [(spec f).delay + uni f 0 0 ((spec f).delay * (1 / 10)),
         (spec f).delay * (spec f).backoff +
           uni f 1 0 ((spec f).delay * (spec f).backoff * (1 / 10))]⟩ :=
    fun args =>
      taskCall_retries2_allfail (spec f) hwfn hrf args (body f args) (hbody args) (uni f)
  have hfailf : ∀ (q : List (Option A)) (st2 : List (Nat × Option A)),
      (dagEng nodes upstream downstream nm spec body uni).exec f q st2 =
        Except.error () := by
    intro q st2
    show (taskCall (spec f) q (body f q) (uni f)).result = _
    rw [hcall q]
  have hfnot : ∀ σ, Reach (dagEng nodes upstream downstream nm spec body uni) σ →
      f ∉ σ.processed := by
    intro σ hr
    induction hr with
    | init => exact List.not_mem_nil f
    | step hr2 hstep ih =>
      cases hstep with
      | proc v p r hmem hok =>
        rw [processOne_processed]
        intro hc
        rcases List.mem_append.mp hc with h1 | h1
        · exact ih h1
        · have h2 : f = v := by simpa using h1
          subst h2
          rw [hfailf p _] at hok
          exact absurd hok (by simp)
  refine ⟨hcall, ?_, ?_⟩
  · intro σ hr
    have hinv := invA_reach hwf hr
    refine ⟨hfnot σ hr, ?_⟩
    intro d hd
    have hdnode : d ∈ nodes := hwf.down_mem f hf d hd
    have hfup : f ∈ upstream d := by
      have h1 : 0 <
          ((dagEng nodes upstream downstream nm spec body uni).downstream f).count d :=
        List.count_pos_iff.mpr hd
      have h2 := hwf.dual f hf d hdnode
      have h3 : 0 <
          ((dagEng nodes upstream downstream nm spec body uni).upstream d).count f := by
        omega
      exact List.count_pos_iff.mp h3
    constructor
    · intro hc
      exact hfnot σ hr (hinv.pend_up d hc f hfup)
    · intro hc
      exact hfnot σ hr (hinv.proc_up d hc f hfup)
  · intro σ hr hstuck
    have hpart : ∀ x ∈ σ.pending, x.1 = f ∧
        (dagEng nodes upstream downstream nm spec body uni).exec x.1 x.2 σ.store =
          Except.error () := by
      intro x hx
      have hfail := stuck_pending_fails hstuck x hx
      refine ⟨?_, hfail⟩
      by_contra hne
      have hxnode : x.1 ∈ nodes :=
        (invA_reach hwf hr).pend_sub x.1 (List.mem_map.mpr ⟨x, hx, rfl⟩)
      obtain ⟨w, hw⟩ := hothers x.1 hxnode hne x.2 σ.store
      rw [hw] at hfail
      exact absurd hfail (by simp)
    refine ⟨?_, hpart⟩
    intro hp
    have hall := pending_empty_all_processed hwf hacyc hr hp
    exact hfnot σ hr (hall f hf)

/-- C4 witness: the 2-node fixture with node 0 failing under
`retries = 2`. -/
theorem claim4_witness :
    taskCall (c4Spec 0) [] (c4Body 0 []) (exUni 0) =
      ⟨Except.error (), 3,
        [(c4Spec 0).delay + exUni 0 0 0 ((c4Spec 0).delay * (1 / 10)),
         (c4Spec 0).delay * (c4Spec 0).backoff +
           exUni 0 1 0 ((c4Spec 0).delay * (c4Spec 0).backoff * (1 / 10))]⟩ :=
  (claim4_retry_exhaustion [0, 1] c4Upstream c4Downstream (fun n => n) c4Spec c4Body
    exUni 0 c4Eng rfl ⟨by decide, by decide, by decide, by decide⟩ c4_acyclic
    (by decide) rfl rfl (fun _ _ => rfl)
    (by
      intro v hv hne q st2
      have hv1 : v = 1 := by
        simp at hv
        rcases hv with h | h
        · exact absurd h hne
        · exact h
      subst hv1
      exact ⟨some 1, rfl⟩)).1 []

/-- C8: in `FunctionalFlow`, the nodes of the executed graph are exactly
those reverse-reachable from the declared outputs through recorded inputs;
every processed node and every Result Store key in any reachable run state
comes from that reachable set (a constructed but unreachable `AppliedTask`
is excluded from the graph, never executed and contributes no result); and
when no execution fails, a finished run has processed every reachable
node. -/
theorem claim8_reachable_subgraph (g : FFGraph) (outputs : List Nat) (nm : Nat → Nat)
    (spec : Nat → TaskSpec V) (params : Nat → List Nat)
    (bodyPos : Nat → Nat → Except Unit (Option V))
    (bodyKw : Nat → List (Nat × Option V) → Except Unit (Option V))
    (uni : Nat → Nat → ℚ → ℚ → ℚ)
    (e : Eng V Unit) (he : e = ffEng g outputs nm spec params bodyPos bodyKw uni) :
    (∀ w, w ∈ e.nodes ↔ ∃ o ∈ outputs, InpReach g o w) ∧
    (∀ σ, Reach e σ →
      (∀ v ∈ σ.processed, ∃ o ∈ outputs, InpReach g o v) ∧
      (∀ kv ∈ σ.store, ∃ v, (∃ o ∈ outputs, InpReach g o v) ∧ nm v = kv.1)) ∧
    ((∀ v q st2, ∃ w, e.exec v q st2 = Except.ok w) →
      ∀ σ, Reach e σ → (∀ σ2, ¬ Step e σ σ2) →
      ∀ w, (∃ o ∈ outputs, InpReach g o w) → w ∈ σ.processed) := by
  subst he
  have hwf := ffEng_wf g outputs nm spec params bodyPos bodyKw uni
  refine ⟨fun w => ffAllNodes_iff_reach g outputs w, ?_, ?_⟩
  · intro σ hr
    have hinv := invA_reach hwf hr
    constructor
    · intro v hv
      exact (ffAllNodes_iff_reach g outputs v).mp (hinv.proc_sub v hv)
    · intro kv hkv
      obtain ⟨v, hv, h2, _, _⟩ := hinv.store_src kv hkv
      exact ⟨v, (ffAllNodes_iff_reach g outputs v).mp (hinv.proc_sub v hv), h2⟩
  · intro hok σ hr hstuck w hw
    have hp := stuck_allok_pending_empty hok hstuck
    have hall := pending_empty_all_processed hwf (ffEng_acyclic g outputs) hr hp
    exact hall w ((ffAllNodes_iff_reach g outputs w).mpr hw)

/-- C8 witness: the one-node functional fixture. -/
theorem claim8_witness :
    (0 ∈ ffSkipEng.nodes ↔ ∃ o ∈ [0], InpReach exFFGraph o 0) ∧
    (∀ v ∈ (initState ffSkipEng).processed, ∃ o ∈ [0], InpReach exFFGraph o v) :=
  ⟨(claim8_reachable_subgraph exFFGraph [0] (fun n => n) ffSkipSpec (fun _ => [])
      (fun v _ => Except.ok (some (10 * (v + 1))))
      (fun v _ => Except.ok (some (10 * (v + 1)))) exUni ffSkipEng rfl).1 0,
    ((claim8_reachable_subgraph exFFGraph [0] (fun n => n) ffSkipSpec (fun _ => [])
      (fun v _ => Except.ok (some (10 * (v + 1))))
      (fun v _ => Except.ok (some (10 * (v + 1)))) exUni ffSkipEng rfl).2.1
      (initState ffSkipEng) Reach.init).1⟩

end Flowkit
